import Mathlib

/-!
Shallow embedding of `log_retainer.py`: a log-retention engine that keeps, in
bounded per-level FIFO queues, the most recent log entries per severity level,
together with a global insertion-ordered index mapping sequence numbers to
rendered text.  Python dicts/OrderedDicts are embedded as association lists,
Python exceptions as an explicit error component of each operation's result.
-/

set_option linter.unusedVariables false

/-- Severity constants of the `logging` module (`logging.DEBUG` etc.). -/
def logDEBUG : Int := 10

/-- The `logging.INFO` constant. -/
def logINFO : Int := 20

/-- The `logging.WARNING` constant. -/
def logWARNING : Int := 30

/-- The `logging.ERROR` constant. -/
def logERROR : Int := 40

/-- The `logging.CRITICAL` constant. -/
def logCRITICAL : Int := 50

/-- A `logging.LogRecord` as far as this module reads it: emitter name
(`rec.name`), numeric severity (`rec.levelno`) and the message payload.
Rendering of a record to text (`Handler.format`) is an external collaborator;
it is embedded as the payload string carried by the record. -/
structure LogRecord where
  name : String
  levelno : Int
  msg : String
deriving DecidableEq

/-- Python exceptions that the embedded operations can raise. -/
inductive PyError where
  | typeError
  | valueError
  | keyError
  | attributeError
  | indexError
deriving DecidableEq

/-- Lookup in a Python dict / OrderedDict embedded as an association list
(`d.get(k)` — returns `None` when the key is absent). -/
def dget {κ α : Type} [DecidableEq κ] : List (κ × α) → κ → Option α
  | [], _ => none
  | (k, v) :: rest, key => if key = k then some v else dget rest key

/-- Assignment `d[k] = v` on a dict embedded as an association list: an
existing key keeps its position (OrderedDict update semantics), a new key is
appended at the end (insertion order). -/
def dset {κ α : Type} [DecidableEq κ] : List (κ × α) → κ → α → List (κ × α)
  | [], key, v => [(key, v)]
  | (k, w) :: rest, key, v => if key = k then (k, v) :: rest else (k, w) :: dset rest key v

/-- Removal of the entry of key `key` (keys are unique in an embedded dict,
so removing the first occurrence is removal of the occurrence). -/
def dremove {κ α : Type} [DecidableEq κ] : List (κ × α) → κ → List (κ × α)
  | [], _ => []
  | (k, v) :: rest, key => if key = k then rest else (k, v) :: dremove rest key

/-- `d.pop(k)` on a dict: removes the key, raising `KeyError` (modelled as
`none`) when it is absent. -/
def dpop {κ α : Type} [DecidableEq κ] (d : List (κ × α)) (key : κ) : Option (List (κ × α)) :=
  if (dget d key).isSome then some (dremove d key) else none

/-- `lst.pop(lst.index(t))`: remove the first occurrence of value `t` from a
Python list, raising `ValueError` (modelled as `none`) when `t` is absent. -/
def listRemoveValue (l : List Nat) (t : Nat) : Option (List Nat) :=
  if t ∈ l then some (l.erase t) else none

/-- State of a `LogRetainFilter` (and of its subclass `LogRetainSuppress`,
marked by `isSuppress`): the configured match key `(name, level)`, the
filter's own capacity `count`, and its internal FIFO `_index` of buffered
sequence numbers. -/
structure LogRetainFilter where
  name : String
  level : Int
  count : Int
  filterIndex : List Nat
  isSuppress : Bool
deriving DecidableEq

/-- `LogRetainFilter(name, level, count)`: fresh Retain filter with an empty
internal FIFO. -/
def mkLogRetainFilter (name : String) (level : Int) (count : Int) : LogRetainFilter :=
  { name := name, level := level, count := count, filterIndex := [], isSuppress := false }

/-- `LogRetainSuppress(name, level, count)`: fresh Suppress filter. -/
def mkLogRetainSuppress (name : String) (level : Int) (count : Int) : LogRetainFilter :=
  { name := name, level := level, count := count, filterIndex := [], isSuppress := true }

/-- `LogRetainFilter.filter(logSeq, rec)` resp. the `LogRetainSuppress`
override.  The Suppress variant returns `logSeq` itself on a key match and
`None` otherwise, touching no state.  The Retain variant, on a key match,
pops and returns the oldest FIFO entry when the FIFO already holds at least
`count` entries (`list.pop(0)` raises `IndexError` on an empty list, which is
reachable when `count <= 0`), then appends `logSeq` to the FIFO; on a
non-match it returns `None` and leaves the FIFO unchanged. -/
def LogRetainFilter.filterEval (f : LogRetainFilter) (logSeq : Nat) (rec : LogRecord) :
    Except PyError (Option Nat × LogRetainFilter) :=
  if f.isSuppress then
    if rec.name = f.name ∧ rec.levelno = f.level then .ok (some logSeq, f)
    else .ok (none, f)
  else
    if rec.name = f.name ∧ rec.levelno = f.level then
      if f.count ≤ (f.filterIndex.length : Int) then
        match f.filterIndex with
        | [] => .error .indexError
        | rm :: rest => .ok (some rm, { f with filterIndex := rest ++ [logSeq] })
      else .ok (none, { f with filterIndex := f.filterIndex ++ [logSeq] })
    else .ok (none, f)

/-- State of a `LogRetainHandler`: the configured retain map `retainSetup`,
minimum level, sequence counter `logSeq`, the global insertion-ordered index
`_index : OrderedDict[int, str]`, the per-level queues `_retain : dict[int, list]`
and the registered filter chain `_filters`. -/
structure LogRetainHandler where
  retainSetup : List (Int × Int)
  level : Int
  logSeq : Nat
  index : List (Nat × String)
  retain : List (Int × List Nat)
  filters : List LogRetainFilter
deriving DecidableEq

/-- The `_retain` dict built by the constructor loop
`for k in self.retainSetup.keys(): self._retain[k] = list()`. -/
def initRetain (keys : List Int) : List (Int × List Nat) :=
  keys.foldl (fun d k => dset d k []) []

/-- `LogRetainHandler.__init__(retain, level)`: stores the configuration
verbatim (no validation is performed by the source) and creates one empty
per-level queue per configured severity. -/
def mkLogRetainHandler (retain : List (Int × Int)) (level : Int) : LogRetainHandler :=
  { retainSetup := retain
    level := level
    logSeq := 0
    index := []
    retain := initRetain (retain.map Prod.fst)
    filters := [] }

/-- The module's `DEFAULT_RETAIN` configuration. -/
def DEFAULT_RETAIN : List (Int × Int) :=
  [(logDEBUG, 50), (logINFO, 50), (logWARNING, 20), (logERROR, 15), (logCRITICAL, 15)]

/-- `self.format(record)`: rendering is delegated to the logging framework's
formatter (an external collaborator, out of scope); embedded as the record's
message payload. -/
def LogRetainHandler.format (h : LogRetainHandler) (rec : LogRecord) : String :=
  rec.msg

/-- Outcome of the filter loop inside `emit`: either the loop ran to
completion (`ok`), or some filter asked to remove the current record itself
and `emit` returned early (`suppressed`), or a Python exception aborted the
loop (`err`).  Each variant carries the filter chain (processed filters
updated, unprocessed ones untouched), the index and the current per-level
queue (`None` exactly when the record's level has no queue). -/
inductive FilterLoopResult where
  | ok (fs : List LogRetainFilter) (idx : List (Nat × String)) (q : Option (List Nat))
  | suppressed (fs : List LogRetainFilter) (idx : List (Nat × String)) (q : Option (List Nat))
  | err (e : PyError) (fs : List LogRetainFilter) (idx : List (Nat × String)) (q : Option (List Nat))
deriving DecidableEq

/-- Re-attach an already-processed filter at the head of the chain carried by
a loop outcome. -/
def FilterLoopResult.consF (f : LogRetainFilter) : FilterLoopResult → FilterLoopResult
  | .ok fs idx q => .ok (f :: fs) idx q
  | .suppressed fs idx q => .suppressed (f :: fs) idx q
  | .err e fs idx q => .err e (f :: fs) idx q

/-- The loop `for filter in self._filters:` of `emit`, threading the index
and the queue of the record's level (`lvlRecs`, which aliases the list stored
in `_retain`).  `if toRemove:` is Python truthiness, so a returned `0` is
treated like `None`.  `toRemove == self.logSeq` returns early (suppression).
Otherwise `lvlRecs.pop(lvlRecs.index(toRemove))` runs — raising
`AttributeError` when `lvlRecs` is `None` and `ValueError` when the value is
absent (the surrounding `try/finally: pass` has no `except` clause and does
not swallow the exception) — followed by `self._index.pop(toRemove)`. -/
def emitFilterLoop (seq : Nat) (rec : LogRecord) :
    List LogRetainFilter → List (Nat × String) → Option (List Nat) → FilterLoopResult
  | [], idx, q => .ok [] idx q
  | f :: fs, idx, q =>
    match f.filterEval seq rec with
    | .error e => .err e (f :: fs) idx q
    | .ok (none, f') => .consF f' (emitFilterLoop seq rec fs idx q)
    | .ok (some t, f') =>
      if t = 0 then .consF f' (emitFilterLoop seq rec fs idx q)
      else if t = seq then .suppressed (f' :: fs) idx q
      else
        match q with
        | none => .err .attributeError (f' :: fs) idx q
        | some ql =>
          match listRemoveValue ql t with
          | none => .err .valueError (f' :: fs) idx (some ql)
          | some ql2 =>
            match dpop idx t with
            | none => .err .keyError (f' :: fs) idx (some ql2)
            | some idx2 => .consF f' (emitFilterLoop seq rec fs idx2 (some ql2))

/-- Reassemble the handler state from the locals of `emit` (in Python the
mutations happen in place; `lvlRecs` aliases the entry of `_retain` at the
record's level, so a present queue is written back at that key). -/
def emitWriteback (h : LogRetainHandler) (rec : LogRecord) (seq : Nat)
    (fs : List LogRetainFilter) (idx : List (Nat × String)) (q : Option (List Nat)) :
    LogRetainHandler :=
  { h with
    logSeq := seq
    filters := fs
    index := idx
    retain := match q with
      | none => h.retain
      | some ql => dset h.retain rec.levelno ql }

/-- `LogRetainHandler.emit(record)`.  Returns the handler state after the
call together with the Python exception that propagated out of it, if any
(the handler object survives an exception with all mutations made up to that
point).  Mirrors the source line by line: the level gate, the sequence
increment, `lvlRecs = self._retain.get(record.levelno)`, the filter loop,
`self._index[self.logSeq] = self.format(record)`, the capacity check
`len(lvlRecs) >= self.retainSetup.get(record.levelno)` (a `TypeError` when
`lvlRecs` is `None` or the level has no configured capacity), the default
eviction `rm = lvlRecs.pop(0); self._index.pop(rm)`, and the final
`lvlRecs.append(self.logSeq)`. -/
def LogRetainHandler.emit (h : LogRetainHandler) (rec : LogRecord) :
    LogRetainHandler × Option PyError :=
  if h.level ≤ rec.levelno then
    match emitFilterLoop (h.logSeq + 1) rec h.filters h.index (dget h.retain rec.levelno) with
    | .err e fs idx q => (emitWriteback h rec (h.logSeq + 1) fs idx q, some e)
    | .suppressed fs idx q => (emitWriteback h rec (h.logSeq + 1) fs idx q, none)
    | .ok fs idx q =>
      match q with
      | none =>
        (emitWriteback h rec (h.logSeq + 1) fs
          (dset idx (h.logSeq + 1) (h.format rec)) none, some .typeError)
      | some ql =>
        match dget h.retainSetup rec.levelno with
        | none =>
          (emitWriteback h rec (h.logSeq + 1) fs
            (dset idx (h.logSeq + 1) (h.format rec)) (some ql), some .typeError)
        | some cap =>
          if cap ≤ (ql.length : Int) then
            match ql with
            | [] =>
              (emitWriteback h rec (h.logSeq + 1) fs
                (dset idx (h.logSeq + 1) (h.format rec)) (some []), some .indexError)
            | rm :: rest =>
              match dpop (dset idx (h.logSeq + 1) (h.format rec)) rm with
              | none =>
                (emitWriteback h rec (h.logSeq + 1) fs
                  (dset idx (h.logSeq + 1) (h.format rec)) (some rest), some .keyError)
              | some idx2 =>
                (emitWriteback h rec (h.logSeq + 1) fs idx2
                  (some (rest ++ [h.logSeq + 1])), none)
          else
            (emitWriteback h rec (h.logSeq + 1) fs
              (dset idx (h.logSeq + 1) (h.format rec))
              (some (ql ++ [h.logSeq + 1])), none)
  else (h, none)

/-- `LogRetainHandler.addFilter(filter)`. -/
def LogRetainHandler.addFilterR (h : LogRetainHandler) (f : LogRetainFilter) :
    LogRetainHandler :=
  { h with filters := h.filters ++ [f] }

/-- Register a whole chain of filters in order. -/
def addFilters (h : LogRetainHandler) (fs : List LogRetainFilter) : LogRetainHandler :=
  fs.foldl LogRetainHandler.addFilterR h

/-- `LogRetainHandler.getLogEntries()`: the retained `(seq, text)` pairs in
the iteration order of `_index` (the generator is interface sugar with no
suspension point; embedded as the list it yields). -/
def LogRetainHandler.getLogEntries (h : LogRetainHandler) : List (Nat × String) :=
  h.index

/-- The per-line part of `LogRetainHandler.get` (the `dump` operation):
newest-first lines, one per retained entry.  The trailing summary line
depends on the external memory-diagnostics collaborator and is omitted. -/
def LogRetainHandler.dumpLines (h : LogRetainHandler) : List String :=
  (h.index.reverse).map (fun p => toString p.1 ++ "> " ++ p.2)

/-- Feed a list of records to `emit` in order, keeping the handler state a
raised exception leaves behind (the handler object survives the exception). -/
def runEmits (h : LogRetainHandler) (recs : List LogRecord) : LogRetainHandler :=
  recs.foldl (fun s r => (s.emit r).1) h

/-- The key list of the global chronological index, in iteration order. -/
def indexKeys (h : LogRetainHandler) : List Nat :=
  h.index.map Prod.fst

/-- The concatenation of the contents of all per-level retention queues. -/
def queuesUnion (h : LogRetainHandler) : List Nat :=
  h.retain.flatMap Prod.snd

/-- The filter chain carried by a loop outcome. -/
def FilterLoopResult.fsOf : FilterLoopResult → List LogRetainFilter
  | .ok fs _ _ => fs
  | .suppressed fs _ _ => fs
  | .err _ fs _ _ => fs

/-- The index carried by a loop outcome. -/
def FilterLoopResult.idxOf : FilterLoopResult → List (Nat × String)
  | .ok _ idx _ => idx
  | .suppressed _ idx _ => idx
  | .err _ _ idx _ => idx

/-- The per-level queue carried by a loop outcome. -/
def FilterLoopResult.qOf : FilterLoopResult → Option (List Nat)
  | .ok _ _ q => q
  | .suppressed _ _ q => q
  | .err _ _ _ q => q

/-- No two registered filters share the same `(emitter name, level)` match
key. -/
def FilterKeysDistinct (fs : List LogRetainFilter) : Prop :=
  List.Pairwise (fun f g => ¬(f.name = g.name ∧ f.level = g.level)) fs

/-- Invariant of the index/queue pair threaded through the filter loop, with
`rest` the (fixed) contents of all queues other than the current record's and
`bound` the sequence counter before the current call: index keys are strictly
increasing, the key set is `rest` together with the current queue, no
sequence number is retained twice, and all retained numbers were issued
before the current call. -/
def LoopInv (bound : Nat) (rest : List Nat) (idx : List (Nat × String)) (ql : List Nat) :
    Prop :=
  List.Pairwise (· < ·) (idx.map Prod.fst) ∧
  (∀ n, n ∈ idx.map Prod.fst ↔ (n ∈ rest ∨ n ∈ ql)) ∧
  (rest ++ ql).Nodup ∧
  (∀ n ∈ idx.map Prod.fst, n ≤ bound)

/-- The capacity invariant: every per-level queue whose level is configured
with a positive capacity holds at most that many entries. -/
def CapInv (h : LogRetainHandler) : Prop :=
  ∀ k cap ql, dget h.retainSetup k = some cap → 1 ≤ cap →
    dget h.retain k = some ql → (ql.length : Int) ≤ cap

/-- The global-state invariant tying the chronological index to the
per-level queues: index keys are strictly increasing in iteration order, the
key set equals the union of all per-level queue contents, no sequence number
is retained twice, all retained numbers are at most the sequence counter, and
the `_retain` dict has exactly the configured levels as keys. -/
def GoodState (h : LogRetainHandler) : Prop :=
  List.Pairwise (· < ·) (indexKeys h) ∧
  (∀ n, n ∈ indexKeys h ↔ n ∈ queuesUnion h) ∧
  (queuesUnion h).Nodup ∧
  (∀ n ∈ indexKeys h, n ≤ h.logSeq) ∧
  h.retain.map Prod.fst = h.retainSetup.map Prod.fst ∧
  (h.retain.map Prod.fst).Nodup

/-- Records of the chronological-ordering scenario: severities A = ERROR and
B = WARNING, both with capacity 2, accepted in the order A1 B1 A2 B2 A3. -/
def c3Recs : List LogRecord :=
  [⟨"a", logERROR, "A1"⟩, ⟨"b", logWARNING, "B1"⟩, ⟨"a", logERROR, "A2"⟩,
   ⟨"b", logWARNING, "B2"⟩, ⟨"a", logERROR, "A3"⟩]

/-- Final state of the chronological-ordering scenario. -/
def c3Final : LogRetainHandler :=
  runEmits (mkLogRetainHandler [(logERROR, 2), (logWARNING, 2)] logINFO) c3Recs

/-- Handler with INFO capacity 1 and a Retain filter of capacity 2 on
`("X", INFO)`, after two matching records: the filter's FIFO still holds
sequence number 1, which the level queue has already evicted. -/
def c5Handler : LogRetainHandler :=
  runEmits
    (addFilters (mkLogRetainHandler [(logINFO, 1)] logINFO)
      [mkLogRetainFilter "X" logINFO 2])
    [⟨"X", logINFO, "m1"⟩, ⟨"X", logINFO, "m2"⟩]

/-- Handler with INFO capacity 10 and a Retain filter of capacity 1 on
`("X", INFO)`. -/
def c8Handler : LogRetainHandler :=
  addFilters (mkLogRetainHandler [(logINFO, 10)] logINFO)
    [mkLogRetainFilter "X" logINFO 1]

/-- The `("X", INFO)` scenario records for the filter-capacity property. -/
def c8Recs : List LogRecord :=
  [⟨"X", logINFO, "m1"⟩, ⟨"X", logINFO, "m2"⟩, ⟨"X", logINFO, "m3"⟩]

/-- Final state of the filter-capacity scenario. -/
def c8Final : LogRetainHandler :=
  runEmits c8Handler c8Recs

/-- Re-attach a whole list of already-processed filters, in order, at the
head of the chain carried by a loop outcome. -/
def FilterLoopResult.consAll (pre : List LogRetainFilter) (r : FilterLoopResult) :
    FilterLoopResult :=
  pre.foldr (fun f acc => acc.consF f) r

/-- Handler with WARNING capacity 2, a Suppress filter on `("Y", WARNING)`,
after one non-matching WARNING record. -/
def c7Handler : LogRetainHandler :=
  runEmits
    (addFilters (mkLogRetainHandler [(logWARNING, 2)] logINFO)
      [mkLogRetainSuppress "Y" logWARNING 10])
    [⟨"z", logWARNING, "z1"⟩]

/-- Handler with a Retain filter followed by a Suppress filter on the same
key `("Y", WARNING)`. -/
def c9Handler : LogRetainHandler :=
  addFilters (mkLogRetainHandler [(logWARNING, 5)] logINFO)
    [mkLogRetainFilter "Y" logWARNING 3, mkLogRetainSuppress "Y" logWARNING 10]

/-! ### Association-list lemmas -/

theorem dget_isSome_iff {κ α : Type} [DecidableEq κ] (d : List (κ × α)) (k : κ) :
    (dget d k).isSome ↔ k ∈ d.map Prod.fst := by
  induction d with
  | nil => simp [dget]
  | cons p rest ih =>
    obtain ⟨k', v⟩ := p
    by_cases hk : k = k' <;> simp [dget, hk, ih]

theorem dget_eq_none {κ α : Type} [DecidableEq κ] {d : List (κ × α)} {k : κ}
    (h : k ∉ d.map Prod.fst) : dget d k = none := by
  have := (dget_isSome_iff d k).not.mpr h
  cases hd : dget d k with
  | none => rfl
  | some v => rw [hd] at this; simp at this

theorem dget_mem {κ α : Type} [DecidableEq κ] {d : List (κ × α)} {k : κ} {v : α}
    (h : dget d k = some v) : (k, v) ∈ d := by
  induction d with
  | nil => simp [dget] at h
  | cons p rest ih =>
    obtain ⟨k', w⟩ := p
    by_cases hk : k = k'
    · subst hk
      simp [dget] at h
      simp [h]
    · simp [dget, hk] at h
      simp [ih h]

theorem dget_decomp {κ α : Type} [DecidableEq κ] {d : List (κ × α)} {k : κ} {v : α}
    (h : dget d k = some v) :
    ∃ d1 d2, d = d1 ++ (k, v) :: d2 ∧ k ∉ d1.map Prod.fst := by
  induction d with
  | nil => simp [dget] at h
  | cons p rest ih =>
    obtain ⟨k', w⟩ := p
    by_cases hk : k = k'
    · subst hk
      simp [dget] at h
      exact ⟨[], rest, by simp [h], by simp⟩
    · simp [dget, hk] at h
      obtain ⟨d1, d2, hd, hk1⟩ := ih h
      exact ⟨(k', w) :: d1, d2, by simp [hd], by simp [hk, hk1]⟩

theorem dset_append {κ α : Type} [DecidableEq κ] (d1 d2 : List (κ × α)) (k : κ) (v w : α)
    (h : k ∉ d1.map Prod.fst) : dset (d1 ++ (k, v) :: d2) k w = d1 ++ (k, w) :: d2 := by
  induction d1 with
  | nil => simp [dset]
  | cons p rest ih =>
    obtain ⟨k', u⟩ := p
    simp only [List.map_cons, List.mem_cons, not_or] at h
    simp [dset, h.1, ih h.2]

theorem dset_not_mem {κ α : Type} [DecidableEq κ] (d : List (κ × α)) (k : κ) (v : α)
    (h : k ∉ d.map Prod.fst) : dset d k v = d ++ [(k, v)] := by
  induction d with
  | nil => simp [dset]
  | cons p rest ih =>
    obtain ⟨k', u⟩ := p
    simp only [List.map_cons, List.mem_cons, not_or] at h
    simp [dset, h.1, ih h.2]

theorem dset_eq_self {κ α : Type} [DecidableEq κ] {d : List (κ × α)} {k : κ} {v : α}
    (h : dget d k = some v) : dset d k v = d := by
  obtain ⟨d1, d2, rfl, hk⟩ := dget_decomp h
  rw [dset_append _ _ _ _ _ hk]

theorem mem_dset {κ α : Type} [DecidableEq κ] {d : List (κ × α)} {k : κ} {v : α}
    {p : κ × α} (h : p ∈ dset d k v) : p = (k, v) ∨ p ∈ d := by
  induction d with
  | nil => simp [dset] at h; simp [h]
  | cons q rest ih =>
    obtain ⟨k', u⟩ := q
    by_cases hk : k = k'
    · subst hk
      simp [dset] at h
      rcases h with h | h
      · left; simp [h]
      · right; simp [h]
    · simp [dset, hk] at h
      rcases h with h | h
      · right; simp [h]
      · rcases ih h with h' | h'
        · left; exact h'
        · right; simp [h']

theorem dget_dset_self {κ α : Type} [DecidableEq κ] (d : List (κ × α)) (k : κ) (v : α) :
    dget (dset d k v) k = some v := by
  induction d with
  | nil => simp [dset, dget]
  | cons p rest ih =>
    obtain ⟨k', u⟩ := p
    by_cases hk : k = k' <;> simp [dset, dget, hk, ih]

theorem dget_dset_ne {κ α : Type} [DecidableEq κ] (d : List (κ × α)) (k k' : κ) (v : α)
    (h : k' ≠ k) : dget (dset d k v) k' = dget d k' := by
  induction d with
  | nil => simp [dset, dget, h]
  | cons p rest ih =>
    obtain ⟨k'', u⟩ := p
    by_cases hk : k = k''
    · subst hk
      simp [dset, dget, h]
    · by_cases hk' : k' = k'' <;> simp [dset, dget, hk, hk', ih]

theorem dset_map_fst_mem {κ α : Type} [DecidableEq κ] {d : List (κ × α)} {k : κ} (v : α)
    (h : k ∈ d.map Prod.fst) : (dset d k v).map Prod.fst = d.map Prod.fst := by
  induction d with
  | nil => simp at h
  | cons p rest ih =>
    obtain ⟨k', u⟩ := p
    by_cases hk : k = k'
    · simp [dset, hk]
    · simp only [List.map_cons, List.mem_cons] at h
      rcases h with h | h
      · exact absurd h hk
      · simp [dset, hk, ih h]

theorem dremove_sublist {κ α : Type} [DecidableEq κ] (d : List (κ × α)) (k : κ) :
    List.Sublist (dremove d k) d := by
  induction d with
  | nil => simp [dremove]
  | cons p rest ih =>
    obtain ⟨k', v⟩ := p
    by_cases hk : k = k'
    · simp [dremove, hk]
    · simpa [dremove, hk] using ih.cons₂ (k', v)

theorem mem_keys_dremove {κ α : Type} [DecidableEq κ] {d : List (κ × α)}
    (hnd : (d.map Prod.fst).Nodup) (k n : κ) :
    n ∈ (dremove d k).map Prod.fst ↔ n ∈ d.map Prod.fst ∧ n ≠ k := by
  induction d with
  | nil => simp [dremove]
  | cons p rest ih =>
    obtain ⟨k', v⟩ := p
    simp only [List.map_cons, List.nodup_cons] at hnd
    by_cases hk : k = k'
    · subst hk
      simp only [dremove, if_pos rfl, List.map_cons, List.mem_cons]
      constructor
      · intro hn
        refine ⟨Or.inr hn, ?_⟩
        intro he
        rw [he] at hn
        exact hnd.1 hn
      · rintro ⟨hn | hn, hne⟩
        · exact absurd hn hne
        · exact hn
    · simp only [dremove, if_neg hk, List.map_cons, List.mem_cons, ih hnd.2]
      constructor
      · rintro (hn | ⟨hn, hne⟩)
        · refine ⟨Or.inl hn, ?_⟩
          intro he
          rw [he] at hn
          exact hk hn
        · exact ⟨Or.inr hn, hne⟩
      · rintro ⟨hn | hn, hne⟩
        · exact Or.inl hn
        · exact Or.inr ⟨hn, hne⟩

theorem dpop_sublist {κ α : Type} [DecidableEq κ] {d d2 : List (κ × α)} {k : κ}
    (h : dpop d k = some d2) : List.Sublist d2 d := by
  unfold dpop at h
  by_cases hs : (dget d k).isSome
  · rw [if_pos hs] at h
    cases h
    exact dremove_sublist d k
  · rw [if_neg hs] at h
    cases h

theorem dpop_isSome {κ α : Type} [DecidableEq κ] {d : List (κ × α)} {k : κ}
    (h : k ∈ d.map Prod.fst) : dpop d k = some (dremove d k) := by
  unfold dpop
  rw [if_pos ((dget_isSome_iff d k).mpr h)]

theorem listRemoveValue_sublist {ql ql2 : List Nat} {t : Nat}
    (h : listRemoveValue ql t = some ql2) : List.Sublist ql2 ql := by
  unfold listRemoveValue at h
  by_cases ht : t ∈ ql
  · rw [if_pos ht] at h
    cases h
    exact List.erase_sublist t ql
  · rw [if_neg ht] at h
    cases h

theorem foldl_dset_snd (keys : List Int) (d : List (Int × List Nat))
    (hd : ∀ p ∈ d, p.2 = ([] : List Nat)) :
    ∀ p ∈ keys.foldl (fun d k => dset d k []) d, p.2 = [] := by
  induction keys generalizing d with
  | nil => exact hd
  | cons k rest ih =>
    intro p hp
    refine ih (dset d k []) ?_ p hp
    intro q hq
    rcases mem_dset hq with h1 | h2
    · rw [h1]
    · exact hd q h2

theorem initRetain_snd {keys : List Int} {p : Int × List Nat}
    (h : p ∈ initRetain keys) : p.2 = [] :=
  foldl_dset_snd keys [] (by simp) p h

theorem foldl_dset_keys (keys : List Int) (d : List (Int × List Nat))
    (h1 : keys.Nodup) (h2 : ∀ k ∈ keys, k ∉ d.map Prod.fst) :
    (keys.foldl (fun d k => dset d k ([] : List Nat)) d).map Prod.fst =
      d.map Prod.fst ++ keys := by
  induction keys generalizing d with
  | nil => simp
  | cons k rest ih =>
    simp only [List.foldl_cons]
    rw [dset_not_mem d k [] (h2 k (by simp))]
    rw [ih (d ++ [(k, [])]) (List.Nodup.of_cons h1) ?_]
    · simp
    · intro k' hk'
      simp only [List.map_append, List.mem_append, List.map_cons, List.map_nil, not_or]
      refine ⟨h2 k' (by simp [hk']), ?_⟩
      intro he
      simp only [List.mem_cons, List.not_mem_nil, or_false] at he
      rw [List.nodup_cons] at h1
      rw [he] at hk'
      exact h1.1 hk'

theorem initRetain_keys (keys : List Int) (h : keys.Nodup) :
    (initRetain keys).map Prod.fst = keys := by
  unfold initRetain
  rw [foldl_dset_keys keys [] h (by simp)]
  rfl

theorem dget_initRetain_empty {keys : List Int} {k : Int} {ql : List Nat}
    (h : dget (initRetain keys) k = some ql) : ql = [] :=
  initRetain_snd (dget_mem h)

/-! ### Filter-loop lemmas -/

@[simp]
theorem consF_fsOf (f : LogRetainFilter) (r : FilterLoopResult) :
    (r.consF f).fsOf = f :: r.fsOf := by
  cases r <;> rfl

@[simp]
theorem consF_idxOf (f : LogRetainFilter) (r : FilterLoopResult) :
    (r.consF f).idxOf = r.idxOf := by
  cases r <;> rfl

@[simp]
theorem consF_qOf (f : LogRetainFilter) (r : FilterLoopResult) :
    (r.consF f).qOf = r.qOf := by
  cases r <;> rfl

theorem loop_shrink (seq : Nat) (rec : LogRecord) :
    ∀ (fs : List LogRetainFilter) (idx : List (Nat × String)) (ql : List Nat),
      List.Sublist (emitFilterLoop seq rec fs idx (some ql)).idxOf idx ∧
      ∃ ql', (emitFilterLoop seq rec fs idx (some ql)).qOf = some ql' ∧
        List.Sublist ql' ql := by
  intro fs
  induction fs with
  | nil =>
    intro idx ql
    exact ⟨List.Sublist.refl idx, ql, rfl, List.Sublist.refl ql⟩
  | cons f fs ih =>
    intro idx ql
    simp only [emitFilterLoop]
    cases hev : f.filterEval seq rec with
    | error e =>
      exact ⟨List.Sublist.refl idx, ql, rfl, List.Sublist.refl ql⟩
    | ok pair =>
      obtain ⟨topt, f'⟩ := pair
      cases topt with
      | none =>
        simp only [consF_idxOf, consF_qOf]
        exact ih idx ql
      | some t =>
        by_cases ht0 : t = 0
        · simp only [if_pos ht0, consF_idxOf, consF_qOf]
          exact ih idx ql
        · by_cases hts : t = seq
          · simp only [if_neg ht0, if_pos hts]
            exact ⟨List.Sublist.refl idx, ql, rfl, List.Sublist.refl ql⟩
          · simp only [if_neg ht0, if_neg hts]
            cases hrm : listRemoveValue ql t with
            | none =>
              exact ⟨List.Sublist.refl idx, ql, rfl, List.Sublist.refl ql⟩
            | some ql2 =>
              cases hdp : dpop idx t with
              | none =>
                exact ⟨List.Sublist.refl idx, ql2, rfl, listRemoveValue_sublist hrm⟩
              | some idx2 =>
                simp only [consF_idxOf, consF_qOf]
                obtain ⟨hsub, ql', hq', hsub'⟩ := ih idx2 ql2
                exact ⟨hsub.trans (dpop_sublist hdp), ql', hq',
                  hsub'.trans (listRemoveValue_sublist hrm)⟩

theorem loop_none (seq : Nat) (rec : LogRecord) :
    ∀ (fs : List LogRetainFilter) (idx : List (Nat × String)),
      (emitFilterLoop seq rec fs idx none).idxOf = idx ∧
      (emitFilterLoop seq rec fs idx none).qOf = none := by
  intro fs
  induction fs with
  | nil =>
    intro idx
    exact ⟨rfl, rfl⟩
  | cons f fs ih =>
    intro idx
    simp only [emitFilterLoop]
    cases hev : f.filterEval seq rec with
    | error e => exact ⟨rfl, rfl⟩
    | ok pair =>
      obtain ⟨topt, f'⟩ := pair
      cases topt with
      | none =>
        simp only [consF_idxOf, consF_qOf]
        exact ih idx
      | some t =>
        by_cases ht0 : t = 0
        · simp only [if_pos ht0, consF_idxOf, consF_qOf]
          exact ih idx
        · by_cases hts : t = seq
          · simp only [if_neg ht0, if_pos hts]
            exact ⟨rfl, rfl⟩
          · simp only [if_neg ht0, if_neg hts]
            exact ⟨rfl, rfl⟩

/-! ### Claim theorems (concrete scenarios and direct consequences) -/

/-- Claim C10 (confirmed): an `emit` call for a record whose severity is
strictly below the configured minimum level is a complete no-op — the
sequence counter does not advance, no filter state, queue or index entry
changes, and no error is raised; the threshold check precedes sequence
assignment. -/
theorem c10_below_threshold_is_noop (h : LogRetainHandler) (rec : LogRecord)
    (hlt : rec.levelno < h.level) :
    h.emit rec = (h, none) := by
  unfold LogRetainHandler.emit
  rw [if_neg (by omega)]

/-- Witness for C10: a DEBUG record below an INFO threshold leaves the
freshly constructed default handler untouched. -/
theorem c10_below_threshold_is_noop_witness :
    (⟨"task", logDEBUG, "m"⟩ : LogRecord).levelno <
        (mkLogRetainHandler DEFAULT_RETAIN logINFO).level ∧
    (mkLogRetainHandler DEFAULT_RETAIN logINFO).emit ⟨"task", logDEBUG, "m"⟩ =
      (mkLogRetainHandler DEFAULT_RETAIN logINFO, none) :=
  ⟨by decide, c10_below_threshold_is_noop _ _ (by decide)⟩

/-- Claim C1 (code-bug evidence): a WARNING record admitted by a DEBUG
minimum level but absent from the retain map `[(INFO, 2)]` is NOT passed
through silently — `emit` inserts the record into the global chronological
index (so it appears in later retrieval output, although no queue references
it) and then raises `TypeError` (from `len(None)`), so the call does not
complete normally. -/
theorem c1_unconfigured_level_crashes :
    (mkLogRetainHandler [(logINFO, 2)] logDEBUG).emit ⟨"a", logWARNING, "w"⟩ =
      ({ retainSetup := [(logINFO, 2)], level := logDEBUG, logSeq := 1,
         index := [(1, "w")], retain := [(logINFO, [])], filters := [] },
       some .typeError) ∧
    (1, "w") ∈
      ((mkLogRetainHandler [(logINFO, 2)] logDEBUG).emit
        ⟨"a", logWARNING, "w"⟩).1.getLogEntries := by
  exact ⟨by decide, by decide⟩

/-- Claim C3 (confirmed): with severities ERROR and WARNING each configured
with capacity 2 and records accepted in the order A1 B1 A2 B2 A3, the final
retained set is `{A2, A3}` for ERROR and `{B1, B2}` for WARNING, and
oldest-first retrieval yields exactly B1(seq 2), A2(seq 3), B2(seq 4),
A3(seq 5) in ascending sequence order. -/
theorem c3_chronological_retention :
    c3Final.getLogEntries = [(2, "B1"), (3, "A2"), (4, "B2"), (5, "A3")] ∧
    dget c3Final.retain logERROR = some [3, 5] ∧
    dget c3Final.retain logWARNING = some [2, 4] := by
  decide

/-- Claim C4 counterexample: the constructor does NOT fail fast — called
with a zero capacity, a negative capacity and an unrecognized minimum level
`999`, it completes normally and stores the invalid configuration verbatim
(the source constructor has no validation and no failure path). -/
theorem c4_counterexample_constructor_accepts_invalid :
    mkLogRetainHandler [(logINFO, 0), (logWARNING, -5)] 999 =
      { retainSetup := [(logINFO, 0), (logWARNING, -5)], level := 999, logSeq := 0,
        index := [], retain := [(logINFO, []), (logWARNING, [])], filters := [] } := by
  decide

/-- Claim C4 amended: construction never rejects a configuration — for every
retain map and minimum level it succeeds and stores them verbatim; an invalid
capacity surfaces only later, e.g. a zero capacity makes the first `emit` at
that level raise `IndexError` (after the record was already inserted into the
global index). -/
theorem c4_amended_no_validation :
    (∀ (retainConfig : List (Int × Int)) (lvl : Int),
      mkLogRetainHandler retainConfig lvl =
        { retainSetup := retainConfig, level := lvl, logSeq := 0, index := [],
          retain := initRetain (retainConfig.map Prod.fst), filters := [] }) ∧
    (mkLogRetainHandler [(logINFO, 0)] logINFO).emit ⟨"a", logINFO, "m"⟩ =
      ({ retainSetup := [(logINFO, 0)], level := logINFO, logSeq := 1,
         index := [(1, "m")], retain := [(logINFO, [])], filters := [] },
       some .indexError) :=
  ⟨fun r l => rfl, by decide⟩

/-- Claim C5 counterexample: the claim that a missing eviction target is
silently ignored is false — with INFO capacity 1 and a Retain filter of
capacity 2 on `("X", INFO)`, the third matching record makes the filter
return sequence number 1, which the level queue no longer holds, and the
`emit` call surfaces a `ValueError` instead of completing silently. -/
theorem c5_counterexample_error_surfaces :
    (c5Handler.emit ⟨"X", logINFO, "m3"⟩).2 = some .valueError := by
  decide

/-- Claim C5 amended: when a filter returns an eviction target that is
absent from the per-level queue of the record's level, the `ValueError`
raised by `lvlRecs.index(toRemove)` is not swallowed (the `try/finally` block
has no `except` clause): `emit` aborts with `ValueError`, leaving the index
and the queue unchanged and only the sequence counter and the filter's own
FIFO advanced. -/
theorem c5_amended_absent_eviction_target_raises
    (h : LogRetainHandler) (rec : LogRecord) (f f' : LogRetainFilter)
    (rest : List LogRetainFilter) (t : Nat) (ql : List Nat)
    (hfs : h.filters = f :: rest)
    (hlev : h.level ≤ rec.levelno)
    (heval : f.filterEval (h.logSeq + 1) rec = .ok (some t, f'))
    (ht0 : t ≠ 0)
    (htseq : t ≠ h.logSeq + 1)
    (hq : dget h.retain rec.levelno = some ql)
    (htql : t ∉ ql) :
    h.emit rec =
      ({ h with
          logSeq := h.logSeq + 1,
          filters := f' :: rest,
          retain := dset h.retain rec.levelno ql }, some .valueError) := by
  unfold LogRetainHandler.emit
  rw [if_pos hlev, hfs, hq]
  simp only [emitFilterLoop, heval, if_neg ht0, if_neg htseq]
  have hrm : listRemoveValue ql t = none := by
    unfold listRemoveValue
    rw [if_neg htql]
  rw [hrm]
  simp [emitWriteback]

/-- Witness for the amended C5 at the concrete counterexample state. -/
theorem c5_amended_absent_eviction_target_raises_witness :
    c5Handler.emit ⟨"X", logINFO, "m3"⟩ =
      ({ c5Handler with
          logSeq := c5Handler.logSeq + 1,
          filters := [⟨"X", logINFO, 2, [2, 3], false⟩],
          retain := dset c5Handler.retain logINFO [2] }, some .valueError) :=
  c5_amended_absent_eviction_target_raises c5Handler ⟨"X", logINFO, "m3"⟩
    ⟨"X", logINFO, 2, [1, 2], false⟩ ⟨"X", logINFO, 2, [2, 3], false⟩ [] 1 [2]
    (by rfl) (by decide) (by rfl) (by decide) (by decide) (by rfl) (by decide)

/-- Claim C8 (confirmed): a Retain filter's evaluation returns nothing and
leaves its FIFO unchanged on a non-matching record; on a matching record,
with a positive filter capacity, it returns the oldest buffered sequence
number exactly when the FIFO already holds at least `count` entries
(otherwise nothing) and in either case appends the new sequence number after
the capacity check; consequently a Retain filter of capacity 1 on
`("X", INFO)`, fed three matching records under level capacity 10, leaves
exactly the most recent record retained by the engine. -/
theorem c8_retain_filter_contract :
    (∀ (f : LogRetainFilter) (seq : Nat) (rec : LogRecord),
      f.isSuppress = false →
      (¬(rec.name = f.name ∧ rec.levelno = f.level) →
        f.filterEval seq rec = .ok (none, f)) ∧
      ((rec.name = f.name ∧ rec.levelno = f.level) → 1 ≤ f.count →
        (f.count ≤ (f.filterIndex.length : Int) →
          ∃ o frest, f.filterIndex = o :: frest ∧
            f.filterEval seq rec = .ok (some o, { f with filterIndex := frest ++ [seq] })) ∧
        ((f.filterIndex.length : Int) < f.count →
          f.filterEval seq rec =
            .ok (none, { f with filterIndex := f.filterIndex ++ [seq] })))) ∧
    (c8Final.getLogEntries = [(3, "m3")] ∧
      dget c8Final.retain logINFO = some [3]) := by
  constructor
  · intro f seq rec hns
    constructor
    · intro hnm
      simp [LogRetainFilter.filterEval, hns, hnm]
    · intro hm hc
      constructor
      · intro hfull
        rcases hfi : f.filterIndex with _ | ⟨o, frest⟩
        · rw [hfi] at hfull
          simp at hfull
          omega
        · refine ⟨o, frest, rfl, ?_⟩
          simp [LogRetainFilter.filterEval, hns, hm, hfi]
          rw [hfi] at hfull
          simp only [List.length_cons] at hfull
          omega
      · intro hlt
        have hnf : ¬ f.count ≤ (f.filterIndex.length : Int) := by omega
        simp [LogRetainFilter.filterEval, hns, hm, hnf]
  · exact ⟨by decide, by decide⟩

/-- Witness for C8: a non-matching record leaves a fresh capacity-1 filter
unchanged. -/
theorem c8_retain_filter_contract_witness :
    (mkLogRetainFilter "X" logINFO 1).filterEval 7 ⟨"Y", logINFO, "m"⟩ =
      .ok (none, mkLogRetainFilter "X" logINFO 1) :=
  (c8_retain_filter_contract.1 (mkLogRetainFilter "X" logINFO 1) 7
    ⟨"Y", logINFO, "m"⟩ rfl).1 (by decide)

/-! ### State-preservation lemmas for `emit` and `addFilters` -/

theorem addFilters_fields (h : LogRetainHandler) (fs : List LogRetainFilter) :
    (addFilters h fs).retainSetup = h.retainSetup ∧
    (addFilters h fs).level = h.level ∧
    (addFilters h fs).logSeq = h.logSeq ∧
    (addFilters h fs).index = h.index ∧
    (addFilters h fs).retain = h.retain := by
  induction fs generalizing h with
  | nil => exact ⟨rfl, rfl, rfl, rfl, rfl⟩
  | cons f fs ih =>
    have : addFilters h (f :: fs) = addFilters (h.addFilterR f) fs := rfl
    rw [this]
    exact ih (h.addFilterR f)

theorem emit_state_cases (h : LogRetainHandler) (rec : LogRecord) :
    (h.emit rec).1 = h ∨
    ∃ fs idx q, (h.emit rec).1 = emitWriteback h rec (h.logSeq + 1) fs idx q := by
  unfold LogRetainHandler.emit
  by_cases hl : h.level ≤ rec.levelno
  · rw [if_pos hl]
    cases hres : emitFilterLoop (h.logSeq + 1) rec h.filters h.index
        (dget h.retain rec.levelno) with
    | err e fs idx q => exact Or.inr ⟨fs, idx, q, rfl⟩
    | suppressed fs idx q => exact Or.inr ⟨fs, idx, q, rfl⟩
    | ok fs idx q =>
      cases q with
      | none => exact Or.inr ⟨fs, _, none, rfl⟩
      | some ql =>
        cases hcap : dget h.retainSetup rec.levelno with
        | none => exact Or.inr ⟨fs, _, some ql, rfl⟩
        | some cap =>
          by_cases hfull : cap ≤ (ql.length : Int)
          · simp only [if_pos hfull]
            cases ql with
            | nil => exact Or.inr ⟨fs, _, some [], rfl⟩
            | cons rm rest =>
              simp only []
              cases hdp : dpop (dset idx (h.logSeq + 1) (h.format rec)) rm with
              | none => exact Or.inr ⟨fs, _, some rest, rfl⟩
              | some idx2 => exact Or.inr ⟨fs, idx2, some (rest ++ [h.logSeq + 1]), rfl⟩
          · simp only [if_neg hfull]
            exact Or.inr ⟨fs, _, some (ql ++ [h.logSeq + 1]), rfl⟩
  · rw [if_neg hl]
    exact Or.inl rfl

theorem emitWriteback_retainSetup (h : LogRetainHandler) (rec : LogRecord) (seq : Nat)
    (fs : List LogRetainFilter) (idx : List (Nat × String)) (q : Option (List Nat)) :
    (emitWriteback h rec seq fs idx q).retainSetup = h.retainSetup := rfl

theorem emitWriteback_level (h : LogRetainHandler) (rec : LogRecord) (seq : Nat)
    (fs : List LogRetainFilter) (idx : List (Nat × String)) (q : Option (List Nat)) :
    (emitWriteback h rec seq fs idx q).level = h.level := rfl

theorem emit_retainSetup (h : LogRetainHandler) (rec : LogRecord) :
    (h.emit rec).1.retainSetup = h.retainSetup := by
  rcases emit_state_cases h rec with he | ⟨fs, idx, q, he⟩
  · rw [he]
  · rw [he, emitWriteback_retainSetup]

theorem emit_level (h : LogRetainHandler) (rec : LogRecord) :
    (h.emit rec).1.level = h.level := by
  rcases emit_state_cases h rec with he | ⟨fs, idx, q, he⟩
  · rw [he]
  · rw [he, emitWriteback_level]

theorem runEmits_retainSetup (h : LogRetainHandler) (recs : List LogRecord) :
    (runEmits h recs).retainSetup = h.retainSetup := by
  induction recs generalizing h with
  | nil => rfl
  | cons r rs ih =>
    have : runEmits h (r :: rs) = runEmits (h.emit r).1 rs := rfl
    rw [this, ih, emit_retainSetup]

/-- Case analysis of the effect of one `emit` call on the `_retain` dict:
either it is untouched, or only the entry at the record's level is replaced —
by a list obtained from the level's old queue by deletions alone, or by such
a list with the new sequence number appended (after the capacity check). -/
theorem emit_retain_cases (h : LogRetainHandler) (rec : LogRecord) :
    (h.emit rec).1.retain = h.retain ∨
    (∃ ql qlx, dget h.retain rec.levelno = some ql ∧
      (h.emit rec).1.retain = dset h.retain rec.levelno qlx ∧
      (List.Sublist qlx ql ∨
       (∃ cap ql', dget h.retainSetup rec.levelno = some cap ∧
         List.Sublist ql' ql ∧
         ((∃ rm rest2, ql' = rm :: rest2 ∧ cap ≤ (ql'.length : Int) ∧
            qlx = rest2 ++ [h.logSeq + 1]) ∨
          (¬cap ≤ (ql'.length : Int) ∧ qlx = ql' ++ [h.logSeq + 1]))))) := by
  unfold LogRetainHandler.emit
  cases hq0 : dget h.retain rec.levelno with
  | none =>
    by_cases hl : h.level ≤ rec.levelno
    · rw [if_pos hl]
      have hn := loop_none (h.logSeq + 1) rec h.filters h.index
      cases hres : emitFilterLoop (h.logSeq + 1) rec h.filters h.index none with
      | err e fs idx q =>
        rw [hres] at hn
        have hqn : q = none := hn.2
        subst hqn
        left
        rfl
      | suppressed fs idx q =>
        rw [hres] at hn
        have hqn : q = none := hn.2
        subst hqn
        left
        rfl
      | ok fs idx q =>
        rw [hres] at hn
        have hqn : q = none := hn.2
        subst hqn
        left
        rfl
    · rw [if_neg hl]
      left
      rfl
  | some ql0 =>
    by_cases hl : h.level ≤ rec.levelno
    · rw [if_pos hl]
      have hs := loop_shrink (h.logSeq + 1) rec h.filters h.index ql0
      cases hres : emitFilterLoop (h.logSeq + 1) rec h.filters h.index (some ql0) with
      | err e fs idx q =>
        rw [hres] at hs
        obtain ⟨-, ql', hq', hsub⟩ := hs
        have hq : q = some ql' := hq'
        subst hq
        right
        exact ⟨ql0, ql', rfl, rfl, Or.inl hsub⟩
      | suppressed fs idx q =>
        rw [hres] at hs
        obtain ⟨-, ql', hq', hsub⟩ := hs
        have hq : q = some ql' := hq'
        subst hq
        right
        exact ⟨ql0, ql', rfl, rfl, Or.inl hsub⟩
      | ok fs idx q =>
        rw [hres] at hs
        obtain ⟨-, ql', hq', hsub⟩ := hs
        have hq : q = some ql' := hq'
        subst hq
        simp only []
        cases hcap : dget h.retainSetup rec.levelno with
        | none =>
          right
          exact ⟨ql0, ql', rfl, rfl, Or.inl hsub⟩
        | some cap =>
          by_cases hfull : cap ≤ (ql'.length : Int)
          · simp only [if_pos hfull]
            cases ql' with
            | nil =>
              right
              exact ⟨ql0, [], rfl, rfl, Or.inl hsub⟩
            | cons rm rest2 =>
              simp only []
              cases hdp : dpop (dset idx (h.logSeq + 1) (h.format rec)) rm with
              | none =>
                right
                refine ⟨ql0, rest2, rfl, rfl, Or.inl ?_⟩
                exact ((List.Sublist.refl rest2).cons rm).trans hsub
              | some idx2 =>
                right
                exact ⟨ql0, rest2 ++ [h.logSeq + 1], rfl, rfl,
                  Or.inr ⟨cap, rm :: rest2, rfl, hsub, Or.inl ⟨rm, rest2, rfl, hfull, rfl⟩⟩⟩
          · simp only [if_neg hfull]
            right
            exact ⟨ql0, ql' ++ [h.logSeq + 1], rfl, rfl,
              Or.inr ⟨cap, ql', rfl, hsub, Or.inr ⟨hfull, rfl⟩⟩⟩
    · rw [if_neg hl]
      left
      rfl

theorem emit_capinv (h : LogRetainHandler) (rec : LogRecord) (hc : CapInv h) :
    CapInv (h.emit rec).1 := by
  intro k cap ql2 hk hcap hq2
  rw [emit_retainSetup] at hk
  rcases emit_retain_cases h rec with hr | ⟨ql0, qlx, hget, hset, hrest⟩
  · rw [hr] at hq2
    exact hc k cap ql2 hk hcap hq2
  · rw [hset] at hq2
    by_cases hkl : k = rec.levelno
    · subst hkl
      rw [dget_dset_self] at hq2
      have hql2 : qlx = ql2 := Option.some.inj hq2
      rw [← hql2]
      have hlen0 : (ql0.length : Int) ≤ cap := hc rec.levelno cap ql0 hk hcap hget
      rcases hrest with hsub | ⟨cap', ql', hcap', hsub', hcase⟩
      · have hle := hsub.length_le
        omega
      · rw [hk] at hcap'
        have hcapeq : cap = cap' := Option.some.inj hcap'
        rw [← hcapeq] at hcase
        have hlenq : (ql'.length : Int) ≤ cap := by
          have := hsub'.length_le
          omega
        rcases hcase with ⟨rm, rest2, hql', hfull, hqlx⟩ | ⟨hnf, hqlx⟩
        · rw [hqlx]
          rw [hql'] at hlenq
          simp only [List.length_append, List.length_cons, List.length_nil] at hlenq ⊢
          omega
        · rw [hqlx]
          simp only [List.length_append, List.length_cons, List.length_nil]
          omega
    · rw [dget_dset_ne _ _ _ _ hkl] at hq2
      exact hc k cap ql2 hk hcap hq2

theorem runEmits_capinv (h : LogRetainHandler) (recs : List LogRecord) (hc : CapInv h) :
    CapInv (runEmits h recs) := by
  induction recs generalizing h with
  | nil => exact hc
  | cons r rs ih => exact ih (h.emit r).1 (emit_capinv h r hc)

theorem mkHandler_capinv (retainConfig : List (Int × Int)) (minLevel : Int)
    (fs : List LogRetainFilter) :
    CapInv (addFilters (mkLogRetainHandler retainConfig minLevel) fs) := by
  intro k cap ql hk hcap hq
  rw [(addFilters_fields _ _).2.2.2.2] at hq
  have hql : ql = [] := dget_initRetain_empty hq
  rw [hql]
  simp only [List.length_nil]
  omega

/-- Claim C6 (confirmed): for every severity level configured with a
positive capacity `C`, after any sequence of `emit` calls whose records are
all at configured levels (starting from a freshly constructed handler with
any filter chain), the per-level retention queue for that level holds at most
`C` entries. -/
theorem c6_capacity_invariant (retainConfig : List (Int × Int)) (minLevel : Int)
    (fs : List LogRetainFilter) (recs : List LogRecord)
    (hrecs : ∀ r ∈ recs, r.levelno ∈ retainConfig.map Prod.fst)
    (L cap : Int) (hL : dget retainConfig L = some cap) (hcap : 1 ≤ cap)
    (ql : List Nat)
    (hq : dget (runEmits (addFilters (mkLogRetainHandler retainConfig minLevel) fs)
          recs).retain L = some ql) :
    (ql.length : Int) ≤ cap := by
  have hinv := runEmits_capinv _ recs (mkHandler_capinv retainConfig minLevel fs)
  refine hinv L cap ql ?_ hcap hq
  rw [runEmits_retainSetup, (addFilters_fields _ _).1]
  exact hL

/-- Witness for C6 at the chronological-ordering scenario: the ERROR queue
ends as `[3, 5]`, of length at most the configured capacity 2. -/
theorem c6_capacity_invariant_witness :
    dget (runEmits (addFilters (mkLogRetainHandler [(logERROR, 2), (logWARNING, 2)] logINFO)
        []) c3Recs).retain logERROR = some [3, 5] ∧
    (([3, 5] : List Nat).length : Int) ≤ 2 :=
  ⟨by decide,
   c6_capacity_invariant [(logERROR, 2), (logWARNING, 2)] logINFO [] c3Recs
     (by decide) logERROR 2 (by decide) (by decide) [3, 5] (by decide)⟩

/-! ### Suppression lemmas -/

theorem filterEval_nonmatching (f : LogRetainFilter) (seq : Nat) (rec : LogRecord)
    (h : ¬(rec.name = f.name ∧ rec.levelno = f.level)) :
    f.filterEval seq rec = .ok (none, f) := by
  cases hS : f.isSuppress <;> simp [LogRetainFilter.filterEval, hS, h]

theorem consAll_suppressed (pre fs : List LogRetainFilter)
    (idx : List (Nat × String)) (q : Option (List Nat)) :
    FilterLoopResult.consAll pre (.suppressed fs idx q) = .suppressed (pre ++ fs) idx q := by
  induction pre with
  | nil => rfl
  | cons f pre ih =>
    have h1 : FilterLoopResult.consAll (f :: pre) (.suppressed fs idx q) =
        (FilterLoopResult.consAll pre (.suppressed fs idx q)).consF f := rfl
    rw [h1, ih]
    rfl

theorem loop_skip_nonmatching (seq : Nat) (rec : LogRecord)
    (pre rest : List LogRetainFilter) (idx : List (Nat × String)) (q : Option (List Nat))
    (hpre : ∀ f ∈ pre, ¬(rec.name = f.name ∧ rec.levelno = f.level)) :
    emitFilterLoop seq rec (pre ++ rest) idx q =
      FilterLoopResult.consAll pre (emitFilterLoop seq rec rest idx q) := by
  induction pre with
  | nil => rfl
  | cons f pre ih =>
    have hf := filterEval_nonmatching f seq rec (hpre f (by simp))
    simp only [List.cons_append, emitFilterLoop, hf, List.append_eq]
    rw [ih (fun g hg => hpre g (by simp [hg]))]
    rfl

theorem loop_suppress_head (seq : Nat) (rec : LogRecord) (sup : LogRetainFilter)
    (post : List LogRetainFilter) (idx : List (Nat × String)) (q : Option (List Nat))
    (hs : sup.isSuppress = true)
    (hm : rec.name = sup.name ∧ rec.levelno = sup.level)
    (h0 : seq ≠ 0) :
    emitFilterLoop seq rec (sup :: post) idx q = .suppressed (sup :: post) idx q := by
  have he : sup.filterEval seq rec = .ok (some seq, sup) := by
    simp [LogRetainFilter.filterEval, hs, hm]
  simp [emitFilterLoop, he, if_neg h0]

/-! ### Freshness preservation -/

theorem emitWriteback_logSeq (h : LogRetainHandler) (rec : LogRecord) (seq : Nat)
    (fs : List LogRetainFilter) (idx : List (Nat × String)) (q : Option (List Nat)) :
    (emitWriteback h rec seq fs idx q).logSeq = seq := rfl

theorem emit_logSeq_ge (h : LogRetainHandler) (rec : LogRecord) :
    h.logSeq ≤ (h.emit rec).1.logSeq := by
  rcases emit_state_cases h rec with he | ⟨fs, idx, q, he⟩
  · rw [he]
  · rw [he, emitWriteback_logSeq]
    omega

theorem mem_keys_dset {κ α : Type} [DecidableEq κ] {d : List (κ × α)} {k n : κ} {v : α}
    (h : n ∈ (dset d k v).map Prod.fst) : n ∈ d.map Prod.fst ∨ n = k := by
  rcases List.mem_map.mp h with ⟨p, hp, hpn⟩
  rcases mem_dset hp with hpe | hpm
  · right
    rw [hpe] at hpn
    exact hpn ▸ rfl
  · left
    exact List.mem_map.mpr ⟨p, hpm, hpn⟩

/-- Case analysis of the effect of one `emit` call on the `_index` dict:
either it is untouched, or it becomes a sublist of the old index (filter
evictions), possibly with the fresh sequence number inserted and possibly
with one further key removed by the default eviction. -/
theorem emit_index_cases (h : LogRetainHandler) (rec : LogRecord) :
    (h.emit rec).1.index = h.index ∨
    (∃ idx, List.Sublist idx h.index ∧
      ((h.emit rec).1.index = idx ∨
       (h.emit rec).1.index = dset idx (h.logSeq + 1) (h.format rec) ∨
       ∃ rm idx2, dpop (dset idx (h.logSeq + 1) (h.format rec)) rm = some idx2 ∧
         (h.emit rec).1.index = idx2)) := by
  unfold LogRetainHandler.emit
  by_cases hl : h.level ≤ rec.levelno
  · rw [if_pos hl]
    cases hq0 : dget h.retain rec.levelno with
    | none =>
      have hn := loop_none (h.logSeq + 1) rec h.filters h.index
      cases hres : emitFilterLoop (h.logSeq + 1) rec h.filters h.index none with
      | err e fs idx q =>
        rw [hres] at hn
        right
        refine ⟨idx, ?_, Or.inl rfl⟩
        rw [show idx = h.index from hn.1]
      | suppressed fs idx q =>
        rw [hres] at hn
        right
        refine ⟨idx, ?_, Or.inl rfl⟩
        rw [show idx = h.index from hn.1]
      | ok fs idx q =>
        rw [hres] at hn
        have hqn : q = none := hn.2
        subst hqn
        right
        refine ⟨idx, ?_, Or.inr (Or.inl rfl)⟩
        rw [show idx = h.index from hn.1]
    | some ql0 =>
      have hs := loop_shrink (h.logSeq + 1) rec h.filters h.index ql0
      cases hres : emitFilterLoop (h.logSeq + 1) rec h.filters h.index (some ql0) with
      | err e fs idx q =>
        rw [hres] at hs
        exact Or.inr ⟨idx, hs.1, Or.inl rfl⟩
      | suppressed fs idx q =>
        rw [hres] at hs
        exact Or.inr ⟨idx, hs.1, Or.inl rfl⟩
      | ok fs idx q =>
        rw [hres] at hs
        obtain ⟨hsubI, ql', hq', hsubQ⟩ := hs
        have hq : q = some ql' := hq'
        subst hq
        simp only []
        cases hcap : dget h.retainSetup rec.levelno with
        | none => exact Or.inr ⟨idx, hsubI, Or.inr (Or.inl rfl)⟩
        | some cap =>
          by_cases hfull : cap ≤ (ql'.length : Int)
          · simp only [if_pos hfull]
            cases ql' with
            | nil => exact Or.inr ⟨idx, hsubI, Or.inr (Or.inl rfl)⟩
            | cons rm rest2 =>
              simp only []
              cases hdp : dpop (dset idx (h.logSeq + 1) (h.format rec)) rm with
              | none => exact Or.inr ⟨idx, hsubI, Or.inr (Or.inl rfl)⟩
              | some idx2 =>
                exact Or.inr ⟨idx, hsubI, Or.inr (Or.inr ⟨rm, idx2, hdp, rfl⟩)⟩
          · simp only [if_neg hfull]
            exact Or.inr ⟨idx, hsubI, Or.inr (Or.inl rfl)⟩
  · rw [if_neg hl]
    exact Or.inl rfl

theorem emit_preserves_fresh (s : Nat) (h : LogRetainHandler) (rec : LogRecord)
    (hidx : s ∉ indexKeys h) (hqs : ∀ p ∈ h.retain, s ∉ p.2) (hlog : s ≤ h.logSeq) :
    s ∉ indexKeys (h.emit rec).1 ∧ (∀ p ∈ (h.emit rec).1.retain, s ∉ p.2) ∧
      s ≤ (h.emit rec).1.logSeq := by
  have hseq_ne : s ≠ h.logSeq + 1 := by omega
  refine ⟨?_, ?_, le_trans hlog (emit_logSeq_ge h rec)⟩
  · simp only [indexKeys] at hidx ⊢
    rcases emit_index_cases h rec with hi | ⟨idx, hsub, hi | hi | ⟨rm, idx2, hdp, hi⟩⟩
    · rw [hi]
      exact hidx
    · rw [hi]
      intro hmem
      exact hidx ((hsub.map Prod.fst).subset hmem)
    · rw [hi]
      intro hmem
      rcases mem_keys_dset hmem with hm | hm
      · exact hidx ((hsub.map Prod.fst).subset hm)
      · exact hseq_ne hm
    · rw [hi]
      intro hmem
      have hmem2 := ((dpop_sublist hdp).map Prod.fst).subset hmem
      rcases mem_keys_dset hmem2 with hm | hm
      · exact hidx ((hsub.map Prod.fst).subset hm)
      · exact hseq_ne hm
  · rcases emit_retain_cases h rec with hr | ⟨ql0, qlx, hget, hset, hrest⟩
    · rw [hr]
      exact hqs
    · rw [hset]
      intro p hp
      rcases mem_dset hp with hpe | hpm
      · rw [hpe]
        have hql0 : s ∉ ql0 := hqs (rec.levelno, ql0) (dget_mem hget)
        rcases hrest with hsub | ⟨cap, ql', hcap, hsub', hcase⟩
        · intro hs'
          exact hql0 (hsub.subset hs')
        · rcases hcase with ⟨rm, rest2, hql', hfull, hqlx⟩ | ⟨hnf, hqlx⟩
          · rw [hqlx]
            intro hs'
            rcases List.mem_append.mp hs' with hm | hm
            · refine hql0 (hsub'.subset ?_)
              rw [hql']
              exact List.mem_cons_of_mem rm hm
            · simp at hm
              omega
          · rw [hqlx]
            intro hs'
            rcases List.mem_append.mp hs' with hm | hm
            · exact hql0 (hsub'.subset hm)
            · simp at hm
              omega
      · exact hqs p hpm

theorem runEmits_preserves_fresh (s : Nat) (h : LogRetainHandler) (recs : List LogRecord)
    (hidx : s ∉ indexKeys h) (hqs : ∀ p ∈ h.retain, s ∉ p.2) (hlog : s ≤ h.logSeq) :
    s ∉ indexKeys (runEmits h recs) ∧ (∀ p ∈ (runEmits h recs).retain, s ∉ p.2) := by
  induction recs generalizing h with
  | nil => exact ⟨hidx, hqs⟩
  | cons r rs ih =>
    obtain ⟨h1, h2, h3⟩ := emit_preserves_fresh s h r hidx hqs hlog
    exact ih (h.emit r).1 h1 h2 h3

/-- Claim C7 (confirmed): when a Suppress filter on `(emitter, level)` is
registered and a record matching that key (at or above the minimum level,
with no other filter matching the key) is accepted, the call returns early
with no error and changes nothing except the sequence counter — the sequence
number enters neither the global chronological index nor any per-level
queue, no filter after the Suppress filter is consulted (post-filters are
returned untouched), no eviction happens, and after any further records the
suppressed sequence number still appears in no index entry, no retrieval
output and no queue. -/
theorem c7_suppress_filter (h : LogRetainHandler) (rec : LogRecord)
    (pre post : List LogRetainFilter) (sup : LogRetainFilter)
    (hfs : h.filters = pre ++ sup :: post)
    (hsup : sup.isSuppress = true)
    (hmatch : rec.name = sup.name ∧ rec.levelno = sup.level)
    (hpre : ∀ f ∈ pre, ¬(rec.name = f.name ∧ rec.levelno = f.level))
    (hpost : ∀ f ∈ post, ¬(rec.name = f.name ∧ rec.levelno = f.level))
    (hlev : h.level ≤ rec.levelno)
    (hidx : ∀ n ∈ indexKeys h, n ≤ h.logSeq)
    (hqs : ∀ p ∈ h.retain, ∀ n ∈ p.2, n ≤ h.logSeq) :
    h.emit rec = ({ h with logSeq := h.logSeq + 1 }, none) ∧
    ∀ (future : List LogRecord),
      (h.logSeq + 1) ∉ indexKeys (runEmits (h.emit rec).1 future) ∧
      (∀ t, (h.logSeq + 1, t) ∉ (runEmits (h.emit rec).1 future).getLogEntries) ∧
      (∀ p ∈ (runEmits (h.emit rec).1 future).retain, (h.logSeq + 1) ∉ p.2) := by
  have hemit : h.emit rec = ({ h with logSeq := h.logSeq + 1 }, none) := by
    unfold LogRetainHandler.emit
    rw [if_pos hlev, hfs]
    rw [loop_skip_nonmatching (h.logSeq + 1) rec pre (sup :: post) h.index
      (dget h.retain rec.levelno) hpre]
    rw [loop_suppress_head (h.logSeq + 1) rec sup post h.index (dget h.retain rec.levelno)
      hsup hmatch (Nat.succ_ne_zero h.logSeq)]
    rw [consAll_suppressed]
    unfold emitWriteback
    cases hq : dget h.retain rec.levelno with
    | none => simp [← hfs]
    | some ql => simp [← hfs, dset_eq_self hq]
  refine ⟨hemit, ?_⟩
  intro future
  have hfr : (h.emit rec).1 = { h with logSeq := h.logSeq + 1 } := by rw [hemit]
  have hidx1 : (h.logSeq + 1) ∉ indexKeys (h.emit rec).1 := by
    rw [hfr]
    intro hmem
    have : h.logSeq + 1 ≤ h.logSeq := hidx (h.logSeq + 1) hmem
    omega
  have hqs1 : ∀ p ∈ (h.emit rec).1.retain, (h.logSeq + 1) ∉ p.2 := by
    rw [hfr]
    intro p hp hmem
    have : h.logSeq + 1 ≤ h.logSeq := hqs p hp (h.logSeq + 1) hmem
    omega
  have hlog1 : h.logSeq + 1 ≤ (h.emit rec).1.logSeq := by
    rw [hfr]
  obtain ⟨ha, hb⟩ := runEmits_preserves_fresh (h.logSeq + 1) (h.emit rec).1 future
    hidx1 hqs1 hlog1
  refine ⟨ha, ?_, hb⟩
  intro t hmem
  exact ha (List.mem_map.mpr ⟨(h.logSeq + 1, t), hmem, rfl⟩)

/-- Witness for C7: a suppressed `("Y", WARNING)` record leaves the handler
unchanged except for the sequence counter, and its sequence number 2 never
appears in any later state. -/
theorem c7_suppress_filter_witness :
    c7Handler.emit ⟨"Y", logWARNING, "y1"⟩ =
      ({ c7Handler with logSeq := c7Handler.logSeq + 1 }, none) ∧
    ∀ (future : List LogRecord),
      (c7Handler.logSeq + 1) ∉
        indexKeys (runEmits (c7Handler.emit ⟨"Y", logWARNING, "y1"⟩).1 future) ∧
      (∀ t, (c7Handler.logSeq + 1, t) ∉
        (runEmits (c7Handler.emit ⟨"Y", logWARNING, "y1"⟩).1 future).getLogEntries) ∧
      (∀ p ∈ (runEmits (c7Handler.emit ⟨"Y", logWARNING, "y1"⟩).1 future).retain,
        (c7Handler.logSeq + 1) ∉ p.2) :=
  c7_suppress_filter c7Handler ⟨"Y", logWARNING, "y1"⟩ [] []
    (mkLogRetainSuppress "Y" logWARNING 10)
    (by rfl) (by rfl) ⟨rfl, rfl⟩ (by simp) (by simp) (by decide) (by decide) (by decide)

/-! ### Filter evaluation under a later suppression -/

theorem getLast?_append_single (l : List Nat) (a : Nat) : (l ++ [a]).getLast? = some a := by
  induction l with
  | nil => rfl
  | cons x xs ih =>
    have hne : xs ++ [a] ≠ [] := by simp
    cases hxs : xs ++ [a] with
    | nil => exact absurd hxs hne
    | cons y ys =>
      rw [List.cons_append, hxs, List.getLast?_cons_cons, ← hxs, ih]

theorem filterEval_ok_retain_match (f f' : LogRetainFilter) (seq : Nat) (rec : LogRecord)
    (topt : Option Nat)
    (hm : rec.name = f.name ∧ rec.levelno = f.level) (hns : f.isSuppress = false)
    (hev : f.filterEval seq rec = .ok (topt, f')) :
    seq ∈ f'.filterIndex ∧ f'.filterIndex.getLast? = some seq := by
  have hev2 : f.filterEval seq rec =
      if f.count ≤ (f.filterIndex.length : Int) then
        match f.filterIndex with
        | [] => .error .indexError
        | rm :: rest => .ok (some rm, { f with filterIndex := rest ++ [seq] })
      else .ok (none, { f with filterIndex := f.filterIndex ++ [seq] }) := by
    unfold LogRetainFilter.filterEval
    rw [hns, if_neg (by simp), if_pos hm]
  rw [hev2] at hev
  by_cases hfull : f.count ≤ (f.filterIndex.length : Int)
  · rw [if_pos hfull] at hev
    cases hfi : f.filterIndex with
    | nil =>
      rw [hfi] at hev
      exact absurd hev (by simp)
    | cons rm rest =>
      rw [hfi] at hev
      injection hev with h1
      injection h1 with h2 h3
      rw [← h3]
      exact ⟨by simp, getLast?_append_single rest seq⟩
  · rw [if_neg hfull] at hev
    injection hev with h1
    injection h1 with h2 h3
    rw [← h3]
    exact ⟨by simp, getLast?_append_single f.filterIndex seq⟩

theorem filterEval_some_le (f f' : LogRetainFilter) (seq : Nat) (rec : LogRecord)
    (t : Nat) (bound : Nat)
    (hnosup : f.isSuppress = true → ¬(rec.name = f.name ∧ rec.levelno = f.level))
    (hb : ∀ n ∈ f.filterIndex, n ≤ bound)
    (hev : f.filterEval seq rec = .ok (some t, f')) :
    t ≤ bound := by
  cases hS : f.isSuppress with
  | true =>
    have hev2 : f.filterEval seq rec = .ok (none, f) := by
      unfold LogRetainFilter.filterEval
      rw [hS, if_pos (Eq.refl true), if_neg (hnosup hS)]
    rw [hev2] at hev
    exact absurd hev (by simp)
  | false =>
    by_cases hm : rec.name = f.name ∧ rec.levelno = f.level
    · have hev2 : f.filterEval seq rec =
          if f.count ≤ (f.filterIndex.length : Int) then
            match f.filterIndex with
            | [] => .error .indexError
            | rm :: rest => .ok (some rm, { f with filterIndex := rest ++ [seq] })
          else .ok (none, { f with filterIndex := f.filterIndex ++ [seq] }) := by
        unfold LogRetainFilter.filterEval
        rw [hS, if_neg (by simp), if_pos hm]
      rw [hev2] at hev
      by_cases hfull : f.count ≤ (f.filterIndex.length : Int)
      · rw [if_pos hfull] at hev
        cases hfi : f.filterIndex with
        | nil =>
          rw [hfi] at hev
          exact absurd hev (by simp)
        | cons rm rest =>
          rw [hfi] at hev
          injection hev with h1
          injection h1 with h2 h3
          have ht : t = rm := (Option.some.inj h2).symm
          rw [ht]
          refine hb rm ?_
          rw [hfi]
          exact List.mem_cons_self rm rest
      · rw [if_neg hfull] at hev
        exact absurd hev (by simp)
    · have hev2 : f.filterEval seq rec = .ok (none, f) := by
        unfold LogRetainFilter.filterEval
        rw [hS, if_neg (by simp), if_neg hm]
      rw [hev2] at hev
      exact absurd hev (by simp)

theorem loop_pre_suppress (bound : Nat) (rec : LogRecord) (sup : LogRetainFilter)
    (post : List LogRetainFilter)
    (hsup : sup.isSuppress = true)
    (hmatch : rec.name = sup.name ∧ rec.levelno = sup.level) :
    ∀ (pre : List LogRetainFilter) (idx : List (Nat × String)) (q : Option (List Nat)),
      (∀ f ∈ pre, f.isSuppress = true → ¬(rec.name = f.name ∧ rec.levelno = f.level)) →
      (∀ f ∈ pre, ∀ n ∈ f.filterIndex, n ≤ bound) →
      (∀ n ∈ idx.map Prod.fst, n ≤ bound) →
      (∀ ql, q = some ql → ∀ n ∈ ql, n ≤ bound) →
      (∃ e fs' idx' q', emitFilterLoop (bound + 1) rec (pre ++ sup :: post) idx q =
          .err e fs' idx' q') ∨
      (∃ pre' idx' q', emitFilterLoop (bound + 1) rec (pre ++ sup :: post) idx q =
          .suppressed (pre' ++ sup :: post) idx' q' ∧
        List.Forall₂ (fun f f' =>
          ((rec.name = f.name ∧ rec.levelno = f.level) ∧ f.isSuppress = false) →
            ((bound + 1) ∈ f'.filterIndex ∧ f'.filterIndex.getLast? = some (bound + 1)))
          pre pre' ∧
        (∀ n ∈ idx'.map Prod.fst, n ≤ bound) ∧
        (∀ ql, q' = some ql → ∀ n ∈ ql, n ≤ bound)) := by
  intro pre
  induction pre with
  | nil =>
    intro idx q hnosup hfifo hidxb hqb
    right
    refine ⟨[], idx, q, ?_, List.Forall₂.nil, hidxb, hqb⟩
    simp only [List.nil_append]
    exact loop_suppress_head (bound + 1) rec sup post idx q hsup hmatch (Nat.succ_ne_zero bound)
  | cons f pre ih =>
    intro idx q hnosup hfifo hidxb hqb
    simp only [List.cons_append, emitFilterLoop, List.append_eq]
    cases hev : f.filterEval (bound + 1) rec with
    | error e =>
      simp only []
      exact Or.inl ⟨e, _, _, _, rfl⟩
    | ok pair =>
      obtain ⟨topt, f'⟩ := pair
      have hR : ((rec.name = f.name ∧ rec.levelno = f.level) ∧ f.isSuppress = false) →
          ((bound + 1) ∈ f'.filterIndex ∧ f'.filterIndex.getLast? = some (bound + 1)) := by
        rintro ⟨hm, hns⟩
        exact filterEval_ok_retain_match f f' (bound + 1) rec topt hm hns hev
      cases topt with
      | none =>
        simp only []
        rcases ih idx q (fun g hg => hnosup g (by simp [hg]))
            (fun g hg => hfifo g (by simp [hg])) hidxb hqb with
          ⟨e, fs', idx', q', hres⟩ | ⟨pre', idx', q', hres, hfa, hidx', hq'⟩
        · rw [hres]
          exact Or.inl ⟨e, _, _, _, rfl⟩
        · rw [hres]
          right
          exact ⟨f' :: pre', idx', q', rfl, List.Forall₂.cons hR hfa, hidx', hq'⟩
      | some t =>
        simp only []
        have ht_le : t ≤ bound := filterEval_some_le f f' (bound + 1) rec t bound
          (hnosup f (by simp)) (hfifo f (by simp)) hev
        by_cases ht0 : t = 0
        · simp only [if_pos ht0]
          rcases ih idx q (fun g hg => hnosup g (by simp [hg]))
              (fun g hg => hfifo g (by simp [hg])) hidxb hqb with
            ⟨e, fs', idx', q', hres⟩ | ⟨pre', idx', q', hres, hfa, hidx', hq'⟩
          · rw [hres]
            exact Or.inl ⟨e, _, _, _, rfl⟩
          · rw [hres]
            right
            exact ⟨f' :: pre', idx', q', rfl, List.Forall₂.cons hR hfa, hidx', hq'⟩
        · simp only [if_neg ht0]
          have hts : ¬ t = bound + 1 := by omega
          simp only [if_neg hts]
          cases q with
          | none =>
            simp only []
            exact Or.inl ⟨.attributeError, _, _, _, rfl⟩
          | some ql =>
            simp only []
            cases hrm : listRemoveValue ql t with
            | none =>
              simp only []
              exact Or.inl ⟨.valueError, _, _, _, rfl⟩
            | some ql2 =>
              simp only []
              cases hdp : dpop idx t with
              | none =>
                simp only []
                exact Or.inl ⟨.keyError, _, _, _, rfl⟩
              | some idx2 =>
                simp only []
                have hidx2 : ∀ n ∈ idx2.map Prod.fst, n ≤ bound := by
                  intro n hn
                  exact hidxb n (((dpop_sublist hdp).map Prod.fst).subset hn)
                have hql2 : ∀ ql', some ql2 = some ql' → ∀ n ∈ ql', n ≤ bound := by
                  rintro ql' heq n hn
                  cases heq
                  exact hqb ql rfl n ((listRemoveValue_sublist hrm).subset hn)
                rcases ih idx2 (some ql2) (fun g hg => hnosup g (by simp [hg]))
                    (fun g hg => hfifo g (by simp [hg])) hidx2 hql2 with
                  ⟨e, fs', idx', q', hres⟩ | ⟨pre', idx', q', hres, hfa, hidx', hq'⟩
                · rw [hres]
                  exact Or.inl ⟨e, _, _, _, rfl⟩
                · rw [hres]
                  right
                  exact ⟨f' :: pre', idx', q', rfl, List.Forall₂.cons hR hfa, hidx', hq'⟩

/-- Claim C9 (confirmed): when a record is suppressed via the short-circuit
(the Suppress filter returned the record's own sequence number), every
matching Retain filter registered earlier in the chain has nevertheless
appended the suppressed sequence number to its internal FIFO (it is a member
and the last element), while that sequence number is in no retention queue
and not in the global chronological index.  The bound hypotheses say the
starting state only holds sequence numbers already issued, which is true of
every reachable state. -/
theorem c9_suppressed_seq_in_earlier_filters (h : LogRetainHandler) (rec : LogRecord)
    (pre post : List LogRetainFilter) (sup : LogRetainFilter)
    (hfs : h.filters = pre ++ sup :: post)
    (hsup : sup.isSuppress = true)
    (hmatch : rec.name = sup.name ∧ rec.levelno = sup.level)
    (hpresup : ∀ f ∈ pre, f.isSuppress = true → ¬(rec.name = f.name ∧ rec.levelno = f.level))
    (hfifo : ∀ f ∈ pre, ∀ n ∈ f.filterIndex, n ≤ h.logSeq)
    (hidx : ∀ n ∈ indexKeys h, n ≤ h.logSeq)
    (hqs : ∀ p ∈ h.retain, ∀ n ∈ p.2, n ≤ h.logSeq)
    (hlev : h.level ≤ rec.levelno)
    (hnoerr : (h.emit rec).2 = none) :
    ∃ pre', (h.emit rec).1.filters = pre' ++ sup :: post ∧
      List.Forall₂ (fun f f' =>
        ((rec.name = f.name ∧ rec.levelno = f.level) ∧ f.isSuppress = false) →
          ((h.logSeq + 1) ∈ f'.filterIndex ∧
            f'.filterIndex.getLast? = some (h.logSeq + 1))) pre pre' ∧
      (h.logSeq + 1) ∉ indexKeys (h.emit rec).1 ∧
      (∀ p ∈ (h.emit rec).1.retain, (h.logSeq + 1) ∉ p.2) := by
  have hqb : ∀ ql, dget h.retain rec.levelno = some ql → ∀ n ∈ ql, n ≤ h.logSeq := by
    intro ql hql n hn
    exact hqs (rec.levelno, ql) (dget_mem hql) n hn
  have hidxb : ∀ n ∈ h.index.map Prod.fst, n ≤ h.logSeq := hidx
  rcases loop_pre_suppress h.logSeq rec sup post hsup hmatch pre h.index
      (dget h.retain rec.levelno) hpresup hfifo hidxb hqb with
    ⟨e, fs', idx', q', hres⟩ | ⟨pre', idx', q', hres, hfa, hidx', hq'⟩
  · exfalso
    have hsome : (h.emit rec).2 = some e := by
      unfold LogRetainHandler.emit
      rw [if_pos hlev, hfs, hres]
    rw [hsome] at hnoerr
    exact Option.noConfusion hnoerr
  · have hemit : h.emit rec =
        (emitWriteback h rec (h.logSeq + 1) (pre' ++ sup :: post) idx' q', none) := by
      unfold LogRetainHandler.emit
      rw [if_pos hlev, hfs, hres]
    refine ⟨pre', ?_, hfa, ?_, ?_⟩
    · rw [hemit]
      rfl
    · rw [hemit]
      intro hmem
      have := hidx' (h.logSeq + 1) hmem
      omega
    · rw [hemit]
      intro p hp hmem
      cases q' with
      | none =>
        have := hqs p hp (h.logSeq + 1) hmem
        omega
      | some ql' =>
        rcases mem_dset hp with hpe | hpm
        · rw [hpe] at hmem
          have := hq' ql' rfl (h.logSeq + 1) hmem
          omega
        · have := hqs p hpm (h.logSeq + 1) hmem
          omega

/-- Witness for C9: a Retain filter followed by a Suppress filter on the
same key; the suppressed record's sequence number 1 ends up in the Retain
filter's FIFO but in no queue and not in the index. -/
theorem c9_suppressed_seq_in_earlier_filters_witness :
    ∃ pre', (c9Handler.emit ⟨"Y", logWARNING, "y1"⟩).1.filters =
        pre' ++ mkLogRetainSuppress "Y" logWARNING 10 :: [] ∧
      List.Forall₂ (fun f f' =>
        (((⟨"Y", logWARNING, "y1"⟩ : LogRecord).name = f.name ∧
          (⟨"Y", logWARNING, "y1"⟩ : LogRecord).levelno = f.level) ∧
          f.isSuppress = false) →
          ((c9Handler.logSeq + 1) ∈ f'.filterIndex ∧
            f'.filterIndex.getLast? = some (c9Handler.logSeq + 1)))
        [mkLogRetainFilter "Y" logWARNING 3] pre' ∧
      (c9Handler.logSeq + 1) ∉ indexKeys (c9Handler.emit ⟨"Y", logWARNING, "y1"⟩).1 ∧
      (∀ p ∈ (c9Handler.emit ⟨"Y", logWARNING, "y1"⟩).1.retain,
        (c9Handler.logSeq + 1) ∉ p.2) :=
  c9_suppressed_seq_in_earlier_filters c9Handler ⟨"Y", logWARNING, "y1"⟩
    [mkLogRetainFilter "Y" logWARNING 3] [] (mkLogRetainSuppress "Y" logWARNING 10)
    (by rfl) (by rfl) ⟨rfl, rfl⟩ (by decide) (by decide) (by decide) (by decide)
    (by decide) (by rfl)

/-! ### Index-consistency invariant -/

theorem flatMap_snd_nil {d : List (Int × List Nat)} (h : ∀ p ∈ d, p.2 = []) :
    d.flatMap Prod.snd = [] := by
  induction d with
  | nil => rfl
  | cons p rest ih =>
    rw [List.flatMap_cons, h p (by simp), ih (fun q hq => h q (by simp [hq]))]
    rfl

theorem nodup_mid_iff (A B C : List Nat) :
    (A ++ (B ++ C)).Nodup ↔ ((A ++ C) ++ B).Nodup := by
  have hp : List.Perm (A ++ (B ++ C)) ((A ++ C) ++ B) := by
    have h1 : List.Perm (B ++ C) (C ++ B) := List.perm_append_comm
    have h2 := List.Perm.append_left A h1
    have h3 : A ++ (C ++ B) = A ++ C ++ B := (List.append_assoc A C B).symm
    rw [h3] at h2
    exact h2
  exact ⟨fun h => hp.nodup h, fun h => hp.symm.nodup h⟩

theorem goodstate_decompose (h : LogRetainHandler) (L : Int) (ql0 : List Nat)
    (hg : GoodState h) (hget : dget h.retain L = some ql0) :
    ∃ d1 d2, h.retain = d1 ++ (L, ql0) :: d2 ∧ L ∉ d1.map Prod.fst ∧
      LoopInv h.logSeq (d1.flatMap Prod.snd ++ d2.flatMap Prod.snd) h.index ql0 := by
  obtain ⟨d1, d2, hd, hL⟩ := dget_decomp hget
  have hunion : ∀ n, n ∈ queuesUnion h ↔
      (n ∈ d1.flatMap Prod.snd ++ d2.flatMap Prod.snd ∨ n ∈ ql0) := by
    intro n
    simp only [queuesUnion, hd, List.flatMap_append, List.flatMap_cons, List.mem_append]
    tauto
  refine ⟨d1, d2, hd, hL, hg.1, ?_, ?_, hg.2.2.2.1⟩
  · intro n
    rw [show h.index.map Prod.fst = indexKeys h from rfl, hg.2.1 n]
    exact hunion n
  · have hnd := hg.2.2.1
    simp only [queuesUnion, hd, List.flatMap_append, List.flatMap_cons] at hnd
    exact (nodup_mid_iff (d1.flatMap Prod.snd) ql0 (d2.flatMap Prod.snd)).mp hnd

theorem goodstate_assemble (setup : List (Int × Int)) (lvl : Int) (nseq : Nat)
    (idxF : List (Nat × String)) (d1 d2 : List (Int × List Nat)) (L : Int)
    (qlF : List Nat) (flt : List LogRetainFilter)
    (hpw : List.Pairwise (· < ·) (idxF.map Prod.fst))
    (hmem : ∀ n, n ∈ idxF.map Prod.fst ↔
      (n ∈ d1.flatMap Prod.snd ++ d2.flatMap Prod.snd ∨ n ∈ qlF))
    (hnd : (d1.flatMap Prod.snd ++ d2.flatMap Prod.snd ++ qlF).Nodup)
    (hbd : ∀ n ∈ idxF.map Prod.fst, n ≤ nseq)
    (hkeys : (d1 ++ (L, qlF) :: d2).map Prod.fst = setup.map Prod.fst)
    (hknd : ((d1 ++ (L, qlF) :: d2).map Prod.fst).Nodup) :
    GoodState
      { retainSetup := setup, level := lvl, logSeq := nseq, index := idxF,
        retain := d1 ++ (L, qlF) :: d2, filters := flt } := by
  refine ⟨hpw, ?_, ?_, hbd, hkeys, hknd⟩
  · intro n
    simp only [indexKeys, queuesUnion, List.flatMap_append, List.flatMap_cons,
      List.mem_append]
    have hx := hmem n
    simp only [List.mem_append] at hx
    tauto
  · simp only [queuesUnion, List.flatMap_append, List.flatMap_cons]
    exact (nodup_mid_iff (d1.flatMap Prod.snd) qlF (d2.flatMap Prod.snd)).mpr hnd

theorem loop_preserves_inv (bound : Nat) (rec : LogRecord) (rest : List Nat) :
    ∀ (fs : List LogRetainFilter) (idx : List (Nat × String)) (ql : List Nat),
      LoopInv bound rest idx ql →
      ∃ ql', (emitFilterLoop (bound + 1) rec fs idx (some ql)).qOf = some ql' ∧
        LoopInv bound rest (emitFilterLoop (bound + 1) rec fs idx (some ql)).idxOf ql' := by
  intro fs
  induction fs with
  | nil =>
    intro idx ql hinv
    exact ⟨ql, rfl, hinv⟩
  | cons f fs ih =>
    intro idx ql hinv
    obtain ⟨hpw, hmem, hnd, hbd⟩ := hinv
    simp only [emitFilterLoop]
    cases hev : f.filterEval (bound + 1) rec with
    | error e =>
      simp only []
      exact ⟨ql, rfl, hpw, hmem, hnd, hbd⟩
    | ok pair =>
      obtain ⟨topt, f'⟩ := pair
      cases topt with
      | none =>
        simp only [consF_idxOf, consF_qOf]
        exact ih idx ql ⟨hpw, hmem, hnd, hbd⟩
      | some t =>
        simp only []
        by_cases ht0 : t = 0
        · simp only [if_pos ht0, consF_idxOf, consF_qOf]
          exact ih idx ql ⟨hpw, hmem, hnd, hbd⟩
        · simp only [if_neg ht0]
          by_cases hts : t = bound + 1
          · simp only [if_pos hts]
            exact ⟨ql, rfl, hpw, hmem, hnd, hbd⟩
          · simp only [if_neg hts]
            cases hrm : listRemoveValue ql t with
            | none =>
              simp only []
              exact ⟨ql, rfl, hpw, hmem, hnd, hbd⟩
            | some ql2 =>
              simp only []
              have htql : t ∈ ql := by
                by_contra hc
                unfold listRemoveValue at hrm
                rw [if_neg hc] at hrm
                exact Option.noConfusion hrm
              have hql2 : ql2 = ql.erase t := by
                unfold listRemoveValue at hrm
                rw [if_pos htql] at hrm
                exact (Option.some.inj hrm).symm
              have hkeysnd : (idx.map Prod.fst).Nodup :=
                hpw.imp (fun hlt => Nat.ne_of_lt hlt)
              have htidx : t ∈ idx.map Prod.fst := (hmem t).mpr (Or.inr htql)
              have hdp : dpop idx t = some (dremove idx t) := dpop_isSome htidx
              rw [hdp]
              simp only [consF_idxOf, consF_qOf]
              rw [List.nodup_append] at hnd
              obtain ⟨hndr, hndq, hdisj⟩ := hnd
              have htrest : t ∉ rest := fun hc => hdisj hc htql
              refine ih (dremove idx t) ql2 ⟨?_, ?_, ?_, ?_⟩
              · exact List.Pairwise.sublist ((dremove_sublist idx t).map Prod.fst) hpw
              · intro n
                rw [mem_keys_dremove hkeysnd t n]
                constructor
                · rintro ⟨hn1, hn2⟩
                  rcases (hmem n).mp hn1 with hr | hq
                  · exact Or.inl hr
                  · refine Or.inr ?_
                    rw [hql2]
                    exact (List.Nodup.mem_erase_iff hndq).mpr ⟨hn2, hq⟩
                · intro hn
                  rcases hn with hr | hq
                  · refine ⟨(hmem n).mpr (Or.inl hr), ?_⟩
                    intro he
                    rw [he] at hr
                    exact htrest hr
                  · rw [hql2] at hq
                    obtain ⟨hne, hq'⟩ := (List.Nodup.mem_erase_iff hndq).mp hq
                    exact ⟨(hmem n).mpr (Or.inr hq'), hne⟩
              · rw [List.nodup_append]
                refine ⟨hndr, ?_, ?_⟩
                · rw [hql2]
                  exact hndq.erase t
                · intro a ha hc
                  rw [hql2] at hc
                  exact hdisj ha (List.mem_of_mem_erase hc)
              · intro n hn
                exact hbd n (((dremove_sublist idx t).map Prod.fst).subset hn)

theorem loopinv_erase (bound : Nat) (rest : List Nat) (idx : List (Nat × String))
    (ql : List Nat) (t : Nat) (htql : t ∈ ql) (hinv : LoopInv bound rest idx ql) :
    LoopInv bound rest (dremove idx t) (ql.erase t) := by
  obtain ⟨hpw, hmem, hnd, hbd⟩ := hinv
  have hkeysnd : (idx.map Prod.fst).Nodup := hpw.imp (fun hlt => Nat.ne_of_lt hlt)
  rw [List.nodup_append] at hnd
  obtain ⟨hndr, hndq, hdisj⟩ := hnd
  have htrest : t ∉ rest := fun hc => hdisj hc htql
  refine ⟨?_, ?_, ?_, ?_⟩
  · exact List.Pairwise.sublist ((dremove_sublist idx t).map Prod.fst) hpw
  · intro n
    rw [mem_keys_dremove hkeysnd t n]
    constructor
    · rintro ⟨hn1, hn2⟩
      rcases (hmem n).mp hn1 with hr | hq
      · exact Or.inl hr
      · exact Or.inr ((List.Nodup.mem_erase_iff hndq).mpr ⟨hn2, hq⟩)
    · intro hn
      rcases hn with hr | hq
      · refine ⟨(hmem n).mpr (Or.inl hr), ?_⟩
        intro he
        rw [he] at hr
        exact htrest hr
      · obtain ⟨hne, hq'⟩ := (List.Nodup.mem_erase_iff hndq).mp hq
        exact ⟨(hmem n).mpr (Or.inr hq'), hne⟩
  · rw [List.nodup_append]
    refine ⟨hndr, hndq.erase t, ?_⟩
    intro a ha hc
    exact hdisj ha (List.mem_of_mem_erase hc)
  · intro n hn
    exact hbd n (((dremove_sublist idx t).map Prod.fst).subset hn)

theorem loopinv_insert (bound : Nat) (rest : List Nat) (idx : List (Nat × String))
    (ql : List Nat) (txt : String) (hinv : LoopInv bound rest idx ql) :
    LoopInv (bound + 1) rest (idx ++ [(bound + 1, txt)]) (ql ++ [bound + 1]) := by
  obtain ⟨hpw, hmem, hnd, hbd⟩ := hinv
  have hkeys : (idx ++ [(bound + 1, txt)]).map Prod.fst =
      idx.map Prod.fst ++ [bound + 1] := by
    simp
  have hfresh : ∀ a, a ∈ rest ∨ a ∈ ql → a ≤ bound := by
    intro a ha
    exact hbd a ((hmem a).mpr ha)
  refine ⟨?_, ?_, ?_, ?_⟩
  · rw [hkeys, List.pairwise_append]
    refine ⟨hpw, List.pairwise_singleton _ _, ?_⟩
    intro a ha b hb
    simp only [List.mem_singleton] at hb
    have := hbd a ha
    omega
  · intro n
    rw [hkeys]
    simp only [List.mem_append, List.mem_singleton]
    have hx := hmem n
    tauto
  · rw [← List.append_assoc, List.nodup_append]
    refine ⟨?_, List.nodup_singleton _, ?_⟩
    · rw [List.nodup_append]
      rw [List.nodup_append] at hnd
      exact hnd
    · intro a ha hc
      simp only [List.mem_singleton] at hc
      have : a ≤ bound := hfresh a (List.mem_append.mp ha)
      omega
  · rw [hkeys]
    intro n hn
    rcases List.mem_append.mp hn with hn1 | hn1
    · have := hbd n hn1
      omega
    · simp only [List.mem_singleton] at hn1
      omega

theorem emit_goodstate (h : LogRetainHandler) (rec : LogRecord)
    (hg : GoodState h)
    (hcaps : ∀ p ∈ h.retainSetup, 1 ≤ p.2)
    (hr : rec.levelno ∈ h.retainSetup.map Prod.fst) :
    GoodState (h.emit rec).1 := by
  by_cases hl : h.level ≤ rec.levelno
  · have hkeyseq := hg.2.2.2.2.1
    have hknd0 := hg.2.2.2.2.2
    have hmemret : rec.levelno ∈ h.retain.map Prod.fst := by
      rw [hkeyseq]
      exact hr
    obtain ⟨ql0, hget⟩ : ∃ ql0, dget h.retain rec.levelno = some ql0 := by
      have hs := (dget_isSome_iff h.retain rec.levelno).mpr hmemret
      cases hq : dget h.retain rec.levelno with
      | none => rw [hq] at hs; simp at hs
      | some ql => exact ⟨ql, rfl⟩
    obtain ⟨d1, d2, hd, hL, hinv⟩ := goodstate_decompose h rec.levelno ql0 hg hget
    obtain ⟨ql', hq', hinv'⟩ := loop_preserves_inv h.logSeq rec
      (d1.flatMap Prod.snd ++ d2.flatMap Prod.snd) h.filters h.index ql0 hinv
    have hkeys' : ∀ qlx : List Nat,
        (d1 ++ (rec.levelno, qlx) :: d2).map Prod.fst = h.retainSetup.map Prod.fst := by
      intro qlx
      have heq : (d1 ++ (rec.levelno, qlx) :: d2).map Prod.fst =
          (d1 ++ (rec.levelno, ql0) :: d2).map Prod.fst := by
        simp
      rw [heq, ← hd]
      exact hkeyseq
    have hknd' : ∀ qlx : List Nat,
        ((d1 ++ (rec.levelno, qlx) :: d2).map Prod.fst).Nodup := by
      intro qlx
      have heq : (d1 ++ (rec.levelno, qlx) :: d2).map Prod.fst =
          (d1 ++ (rec.levelno, ql0) :: d2).map Prod.fst := by
        simp
      rw [heq, ← hd]
      exact hknd0
    unfold LogRetainHandler.emit
    rw [if_pos hl, hget]
    cases hres : emitFilterLoop (h.logSeq + 1) rec h.filters h.index (some ql0) with
    | err e fs idx q =>
      rw [hres] at hq' hinv'
      have hqq : q = some ql' := hq'
      subst hqq
      simp only []
      have hwb : emitWriteback h rec (h.logSeq + 1) fs idx (some ql') =
          { retainSetup := h.retainSetup, level := h.level, logSeq := h.logSeq + 1,
            index := idx, retain := d1 ++ (rec.levelno, ql') :: d2, filters := fs } := by
        unfold emitWriteback
        simp only []
        rw [hd, dset_append d1 d2 rec.levelno ql0 ql' hL]
      rw [hwb]
      obtain ⟨hpw, hmem, hnd, hbd⟩ := hinv'
      refine goodstate_assemble h.retainSetup h.level (h.logSeq + 1) idx d1 d2
        rec.levelno ql' fs hpw hmem hnd ?_ (hkeys' ql') (hknd' ql')
      intro n hn
      have := hbd n hn
      omega
    | suppressed fs idx q =>
      rw [hres] at hq' hinv'
      have hqq : q = some ql' := hq'
      subst hqq
      simp only []
      have hwb : emitWriteback h rec (h.logSeq + 1) fs idx (some ql') =
          { retainSetup := h.retainSetup, level := h.level, logSeq := h.logSeq + 1,
            index := idx, retain := d1 ++ (rec.levelno, ql') :: d2, filters := fs } := by
        unfold emitWriteback
        simp only []
        rw [hd, dset_append d1 d2 rec.levelno ql0 ql' hL]
      rw [hwb]
      obtain ⟨hpw, hmem, hnd, hbd⟩ := hinv'
      refine goodstate_assemble h.retainSetup h.level (h.logSeq + 1) idx d1 d2
        rec.levelno ql' fs hpw hmem hnd ?_ (hkeys' ql') (hknd' ql')
      intro n hn
      have := hbd n hn
      omega
    | ok fs idx q =>
      rw [hres] at hq' hinv'
      have hqq : q = some ql' := hq'
      subst hqq
      simp only []
      obtain ⟨hcapv, hcapget⟩ : ∃ cap, dget h.retainSetup rec.levelno = some cap := by
        have hs := (dget_isSome_iff h.retainSetup rec.levelno).mpr hr
        cases hq2 : dget h.retainSetup rec.levelno with
        | none => rw [hq2] at hs; simp at hs
        | some cap => exact ⟨cap, rfl⟩
      rw [hcapget]
      have hcap1 : (1 : Int) ≤ hcapv := hcaps (rec.levelno, hcapv) (dget_mem hcapget)
      have hseqfresh : (h.logSeq + 1) ∉ idx.map Prod.fst := by
        intro hc
        have := hinv'.2.2.2 (h.logSeq + 1) hc
        omega
      have hdset1 : dset idx (h.logSeq + 1) (h.format rec) =
          idx ++ [(h.logSeq + 1, h.format rec)] := dset_not_mem idx _ _ hseqfresh
      have hinv1 := loopinv_insert h.logSeq (d1.flatMap Prod.snd ++ d2.flatMap Prod.snd)
        idx ql' (h.format rec) hinv'
      by_cases hfull : hcapv ≤ (ql'.length : Int)
      · simp only [if_pos hfull]
        obtain ⟨rm, rest2, hql'⟩ : ∃ rm rest2, ql' = rm :: rest2 := by
          cases hc : ql' with
          | nil =>
            exfalso
            rw [hc] at hfull
            simp at hfull
            omega
          | cons a b => exact ⟨a, b, rfl⟩
        rw [hql']
        simp only []
        have hrmmem : rm ∈ ql' ++ [h.logSeq + 1] := by
          rw [hql']
          simp
        have hrmidx1 : rm ∈ (idx ++ [(h.logSeq + 1, h.format rec)]).map Prod.fst :=
          (hinv1.2.1 rm).mpr (Or.inr hrmmem)
        have hdp : dpop (idx ++ [(h.logSeq + 1, h.format rec)]) rm =
            some (dremove (idx ++ [(h.logSeq + 1, h.format rec)]) rm) :=
          dpop_isSome hrmidx1
        rw [hdset1, hdp]
        simp only []
        have hinv2 : LoopInv (h.logSeq + 1) (d1.flatMap Prod.snd ++ d2.flatMap Prod.snd)
            (dremove (idx ++ [(h.logSeq + 1, h.format rec)]) rm)
            (rest2 ++ [h.logSeq + 1]) := by
          have he := loopinv_erase (h.logSeq + 1)
            (d1.flatMap Prod.snd ++ d2.flatMap Prod.snd)
            (idx ++ [(h.logSeq + 1, h.format rec)]) (ql' ++ [h.logSeq + 1]) rm
            hrmmem hinv1
          rw [hql', List.cons_append, List.erase_cons_head] at he
          exact he
        have hwb : emitWriteback h rec (h.logSeq + 1) fs
            (dremove (idx ++ [(h.logSeq + 1, h.format rec)]) rm)
            (some (rest2 ++ [h.logSeq + 1])) =
            { retainSetup := h.retainSetup, level := h.level, logSeq := h.logSeq + 1,
              index := dremove (idx ++ [(h.logSeq + 1, h.format rec)]) rm,
              retain := d1 ++ (rec.levelno, rest2 ++ [h.logSeq + 1]) :: d2,
              filters := fs } := by
          unfold emitWriteback
          simp only []
          rw [hd, dset_append d1 d2 rec.levelno ql0 (rest2 ++ [h.logSeq + 1]) hL]
        rw [hwb]
        obtain ⟨hpw, hmem, hnd, hbd⟩ := hinv2
        exact goodstate_assemble h.retainSetup h.level (h.logSeq + 1) _ d1 d2
          rec.levelno (rest2 ++ [h.logSeq + 1]) fs hpw hmem hnd hbd
          (hkeys' (rest2 ++ [h.logSeq + 1])) (hknd' (rest2 ++ [h.logSeq + 1]))
      · simp only [if_neg hfull]
        rw [hdset1]
        have hwb : emitWriteback h rec (h.logSeq + 1) fs
            (idx ++ [(h.logSeq + 1, h.format rec)]) (some (ql' ++ [h.logSeq + 1])) =
            { retainSetup := h.retainSetup, level := h.level, logSeq := h.logSeq + 1,
              index := idx ++ [(h.logSeq + 1, h.format rec)],
              retain := d1 ++ (rec.levelno, ql' ++ [h.logSeq + 1]) :: d2,
              filters := fs } := by
          unfold emitWriteback
          simp only []
          rw [hd, dset_append d1 d2 rec.levelno ql0 (ql' ++ [h.logSeq + 1]) hL]
        rw [hwb]
        obtain ⟨hpw, hmem, hnd, hbd⟩ := hinv1
        exact goodstate_assemble h.retainSetup h.level (h.logSeq + 1) _ d1 d2
          rec.levelno (ql' ++ [h.logSeq + 1]) fs hpw hmem hnd hbd
          (hkeys' (ql' ++ [h.logSeq + 1])) (hknd' (ql' ++ [h.logSeq + 1]))
  · unfold LogRetainHandler.emit
    rw [if_neg hl]
    exact hg

theorem runEmits_goodstate (h : LogRetainHandler) (recs : List LogRecord)
    (hg : GoodState h)
    (hcaps : ∀ p ∈ h.retainSetup, 1 ≤ p.2)
    (hrecs : ∀ r ∈ recs, r.levelno ∈ h.retainSetup.map Prod.fst) :
    GoodState (runEmits h recs) := by
  induction recs generalizing h with
  | nil => exact hg
  | cons r rs ih =>
    have h1 := emit_goodstate h r hg hcaps (hrecs r (by simp))
    have hsetup := emit_retainSetup h r
    refine ih (h.emit r).1 h1 ?_ ?_
    · rw [hsetup]
      exact hcaps
    · intro r' hr'
      rw [hsetup]
      exact hrecs r' (by simp [hr'])

theorem mkHandler_goodstate (retainConfig : List (Int × Int)) (minLevel : Int)
    (fs : List LogRetainFilter)
    (hnd : (retainConfig.map Prod.fst).Nodup) :
    GoodState (addFilters (mkLogRetainHandler retainConfig minLevel) fs) := by
  obtain ⟨h1, h2, h3, h4, h5⟩ :=
    addFilters_fields (mkLogRetainHandler retainConfig minLevel) fs
  have hidx : (addFilters (mkLogRetainHandler retainConfig minLevel) fs).index = [] := by
    rw [h4]
    rfl
  have hret : (addFilters (mkLogRetainHandler retainConfig minLevel) fs).retain =
      initRetain (retainConfig.map Prod.fst) := by
    rw [h5]
    rfl
  have hsetup : (addFilters (mkLogRetainHandler retainConfig minLevel) fs).retainSetup =
      retainConfig := by
    rw [h1]
    rfl
  have hflat : (initRetain (retainConfig.map Prod.fst)).flatMap Prod.snd = [] :=
    flatMap_snd_nil (fun p hp => initRetain_snd hp)
  refine ⟨?_, ?_, ?_, ?_, ?_, ?_⟩
  · simp only [indexKeys, hidx]
    exact List.Pairwise.nil
  · intro n
    simp only [indexKeys, hidx, queuesUnion, hret, hflat]
    simp
  · simp only [queuesUnion, hret, hflat]
    exact List.nodup_nil
  · simp only [indexKeys, hidx]
    intro n hn
    simp at hn
  · rw [hret, hsetup, initRetain_keys _ hnd]
  · rw [hret, initRetain_keys _ hnd]
    exact hnd

/-- Claim C2 (confirmed): starting from a freshly constructed handler over a
retain-capacity map (a dict: distinct keys, positive capacities per the
RetainConfig data model) with any filter chain whose filters have pairwise
distinct match keys, after every sequence of `emit` calls whose records are
all at configured severity levels, the key set of the global chronological
index equals the union of the contents of all per-level retention queues,
and iterating the index yields strictly increasing sequence numbers. -/
theorem c2_index_consistency (retainConfig : List (Int × Int)) (minLevel : Int)
    (fs : List LogRetainFilter) (recs : List LogRecord)
    (hnd : (retainConfig.map Prod.fst).Nodup)
    (hcaps : ∀ p ∈ retainConfig, 1 ≤ p.2)
    (hfs : FilterKeysDistinct fs)
    (hrecs : ∀ r ∈ recs, r.levelno ∈ retainConfig.map Prod.fst) :
    (∀ n, n ∈ indexKeys
        (runEmits (addFilters (mkLogRetainHandler retainConfig minLevel) fs) recs) ↔
      n ∈ queuesUnion
        (runEmits (addFilters (mkLogRetainHandler retainConfig minLevel) fs) recs)) ∧
    List.Pairwise (· < ·) (indexKeys
      (runEmits (addFilters (mkLogRetainHandler retainConfig minLevel) fs) recs)) := by
  have hg0 := mkHandler_goodstate retainConfig minLevel fs hnd
  have hsetup := (addFilters_fields (mkLogRetainHandler retainConfig minLevel) fs).1
  have hg := runEmits_goodstate _ recs hg0
    (by rw [hsetup]; exact hcaps)
    (by intro r hr; rw [hsetup]; exact hrecs r hr)
  exact ⟨hg.2.1, hg.1⟩

/-- Witness for C2: the chronological-ordering scenario extended with a
Retain filter on `("a", ERROR)`. -/
theorem c2_index_consistency_witness :
    (∀ n, n ∈ indexKeys
        (runEmits (addFilters (mkLogRetainHandler [(logERROR, 2), (logWARNING, 2)] logINFO)
          [mkLogRetainFilter "a" logERROR 1]) c3Recs) ↔
      n ∈ queuesUnion
        (runEmits (addFilters (mkLogRetainHandler [(logERROR, 2), (logWARNING, 2)] logINFO)
          [mkLogRetainFilter "a" logERROR 1]) c3Recs)) ∧
    List.Pairwise (· < ·) (indexKeys
      (runEmits (addFilters (mkLogRetainHandler [(logERROR, 2), (logWARNING, 2)] logINFO)
        [mkLogRetainFilter "a" logERROR 1]) c3Recs)) :=
  c2_index_consistency [(logERROR, 2), (logWARNING, 2)] logINFO
    [mkLogRetainFilter "a" logERROR 1] c3Recs
    (by decide) (by decide) (by simp [FilterKeysDistinct]) (by decide)
